import Mathlib

/-!
# Verification of the windowed density-fluctuation estimator and its post-processing

This file gives a shallow embedding, in Lean 4, of the numerical core of the
`Python-GUI` repository (files `Correlation/src/py_files/df2_nobp.py` and
`Correlation/src/corr_utils.py`) and proves properties of it.

Conventions:
* pixel intensities and tabular values are modelled as rationals (`ℚ`),
  with real numbers (`ℝ`) appearing exactly where the Python code takes a
  square root (`np.std`, `**0.5`);
* a pandas `DataFrame` is modelled as a list of records;
* Python runtime failures (`ValueError`, `NameError`, `IndexError`,
  `AssertionError`) are modelled with an `Except` monad.
-/

namespace GNF

/-- Python exceptions that the embedded code can raise. -/
inductive PyErr where
  | valueError (msg : String)
  | nameError
  | indexError
  | assertionError
  deriving DecidableEq, Repr

/-- The shapes an `xlim` / `tlim` / `fitting_range` argument can take in the
Python code: `None`, an `int`, a `list` (of any length), or a value of any
other type (e.g. a float or a string). -/
inductive XLim where
  | none
  | int (t : ℤ)
  | list (l : List ℤ)
  | other
  deriving DecidableEq, Repr

/-! ## Generic list helpers (first-occurrence dedup, slicing, means) -/

/-- Removes duplicates keeping the *first* occurrence, like pandas
`drop_duplicates`; `seen` accumulates the elements already emitted. -/
def ddAux {α : Type} [DecidableEq α] (seen : List α) : List α → List α
  | [] => []
  | a :: as => if a ∈ seen then ddAux seen as else a :: ddAux (a :: seen) as

/-- pandas `Series.drop_duplicates`: keep the first occurrence of each value. -/
def dedupFirst {α : Type} [DecidableEq α] (l : List α) : List α := ddAux [] l

/-- Python slice `l[0:len(l):k]` for `k ≥ 1`: every `k`-th element. -/
def sliceStep {α : Type} : List α → ℕ → List α
  | [], _ => []
  | a :: as, k => a :: sliceStep (as.drop (k - 1)) k
  termination_by l _ => l.length
  decreasing_by simp only [List.length_cons, List.length_drop]; omega

/-- Mean of a list of rationals (`0` on the empty list, which the code never
takes a mean of). -/
def qMean (l : List ℚ) : ℚ := l.sum / l.length

/-- Mean of a list of reals. -/
noncomputable def rMean (l : List ℝ) : ℝ := l.sum / l.length

/-- Population variance (`ddof = 0`), as computed by `np.std` before the
square root: the mean of the squared deviations from the mean. -/
def popVar (l : List ℚ) : ℚ := qMean (l.map (fun x => (x - qMean l) ^ 2))

/-- `np.std` with default `ddof = 0`: the population standard deviation. -/
noncomputable def npStd (l : List ℚ) : ℝ := Real.sqrt ((popVar l : ℚ) : ℝ)

/-! ## `postprocess_gnf` (corr_utils.py, lines 17–48)

`gnf_data` is a DataFrame with columns `(n, d)`.  The `xlim` dispatch has
branches for `None`, `int` and 2-element `list`, and — unlike the other
plotting helpers — **no** `else` branch: any other shape leaves the local
variable `data` unbound, so the following line raises a `NameError`. -/

/-- A row of GNF data: window area `n` and fluctuation `d`. -/
structure GnfRow where
  n : ℚ
  d : ℚ
  deriving DecidableEq, Repr

/-- The `xlim` filter stage of `postprocess_gnf` (corr_utils.py lines 33–38).
`none` means the local variable `data` was never assigned. -/
def gnfFilter (gnf_data : List GnfRow) (lb : ℚ) : XLim → Option (List GnfRow)
  | XLim.none => some gnf_data
  | XLim.int t => some (gnf_data.filter (fun r => r.n < t * lb ^ 2))
  | XLim.list l =>
      if l.length = 2 then
        some (gnf_data.filter (fun r =>
          (l.getD 0 0 : ℚ) * lb ^ 2 ≤ r.n && r.n < (l.getD 1 0 : ℚ) * lb ^ 2))
      else none
  | XLim.other => none

/-- `postprocess_gnf(gnf_data, lb, xlim, sparse)` (corr_utils.py lines 17–48):
filter by `xlim`, set `x = n / lb²`, `y = d / n**0.5`, rescale `y` by its
first entry (`yy.iat[0]`, an `IndexError` on an empty selection), then keep
every `sparse`-th point (a `ValueError` when the slice step is zero). -/
noncomputable def postprocess_gnf (gnf_data : List GnfRow) (lb : ℚ) (xlim : XLim)
    (sparse : ℕ) : Except PyErr (List ℝ × List ℝ) :=
  match gnfFilter gnf_data lb xlim with
  | Option.none => Except.error PyErr.nameError
  | Option.some data =>
    let xx : List ℝ := data.map (fun r => (r.n : ℝ) / (lb : ℝ) ^ 2)
    let yy : List ℝ := data.map (fun r => (r.d : ℝ) / Real.sqrt (r.n : ℝ))
    match yy.head? with
    | Option.none => Except.error PyErr.indexError
    | Option.some y0 =>
      if sparse = 0 then Except.error (PyErr.valueError "slice step cannot be zero")
      else Except.ok (sliceStep xx sparse, sliceStep (yy.map (· / y0)) sparse)

/-! ## The `tlim`/`xlim`/`fitting_range` dispatches of the other helpers -/

/-- A row of kinetics data computed by `df2_kinetics.py`: `(n, d, segment)`. -/
structure KRow where
  n : ℚ
  d : ℚ
  segment : ℚ
  deriving DecidableEq, Repr

/-- A row of light-intensity data: `(t, intensity)`. -/
structure IRow where
  t : ℚ
  intensity : ℚ
  deriving DecidableEq, Repr

/-- A row of spatial-correlation data: `(R, C)`. -/
structure RRow where
  R : ℚ
  C : ℚ
  deriving DecidableEq, Repr

/-- A row of the correlation DataFrame of `plot_correlation`: the two plotted
columns (by default `R` and `C`) and the concentration `conc`. -/
structure CRow where
  r : ℚ
  c : ℚ
  conc : ℚ
  deriving DecidableEq, Repr

/-- The `tlim` filter stage of `plot_std` (corr_utils.py lines 155–162). -/
def plot_std_tlim (k_data : List KRow) (seg_length fps : ℚ) :
    XLim → Except PyErr (List KRow)
  | XLim.none => Except.ok k_data
  | XLim.int t => Except.ok (k_data.filter (fun r =>
      (r.segment - 1) * seg_length < t * fps))
  | XLim.list l =>
      if l.length = 2 then
        Except.ok (k_data.filter (fun r =>
          ((r.segment - 1) * seg_length < (l.getD 1 0 : ℚ) * fps) &&
            ((l.getD 0 0 : ℚ) * fps ≤ (r.segment - 1) * seg_length)))
      else Except.error (PyErr.valueError "tlim must be None, int or list of 2 int")
  | XLim.other => Except.error (PyErr.valueError "tlim must be None, int or list of 2 int")

/-- The `tlim` filter stage of `plot_kinetics` (corr_utils.py lines 210–223);
it filters both `k_data` and `i_data`, and in the list branch first runs
`assert(tlim[1] > tlim[0])`. -/
def plot_kinetics_tlim (k_data : List KRow) (i_data : List IRow)
    (seg_length fps : ℚ) : XLim → Except PyErr (List KRow × List IRow)
  | XLim.none => Except.ok (k_data, i_data)
  | XLim.int t => Except.ok
      (k_data.filter (fun r => (r.segment - 1) * seg_length / fps < t),
       i_data.filter (fun r => r.t / fps < t))
  | XLim.list l =>
      if l.length = 2 then
        if (l.getD 0 0 : ℤ) < l.getD 1 0 then
          Except.ok
            (k_data.filter (fun r =>
              (r.segment - 1) * seg_length / fps < (l.getD 1 0 : ℚ) &&
                (l.getD 0 0 : ℚ) ≤ (r.segment - 1) * seg_length / fps),
             i_data.filter (fun r =>
              r.t / fps < (l.getD 1 0 : ℚ) && (l.getD 0 0 : ℚ) ≤ r.t / fps))
        else Except.error PyErr.assertionError
      else Except.error (PyErr.valueError "tlim should be None, int or list of 2 int")
  | XLim.other => Except.error (PyErr.valueError "tlim should be None, int or list of 2 int")

/-- The `fitting_range` filter stage of `corr_length` (corr_utils.py
lines 563–570). -/
def corr_length_range (data : List RRow) : XLim → Except PyErr (List RRow)
  | XLim.none => Except.ok data
  | XLim.int t => Except.ok (data.filter (fun r => r.R < t))
  | XLim.list l =>
      if l.length = 2 then
        Except.ok (data.filter (fun r =>
          (r.R < (l.getD 1 0 : ℚ)) && ((l.getD 0 0 : ℚ) ≤ r.R)))
      else Except.error (PyErr.valueError "fitting_range should be None, int or list of 2 int")
  | XLim.other => Except.error (PyErr.valueError "fitting_range should be None, int or list of 2 int")

/-- The `xlim` filter stage of `plot_correlation` (corr_utils.py
lines 652–659), acting on the first plotted column. -/
def plot_correlation_xlim (data : List CRow) : XLim → Except PyErr (List CRow)
  | XLim.none => Except.ok data
  | XLim.int t => Except.ok (data.filter (fun r => r.r < t))
  | XLim.list l =>
      if l.length = 2 then
        Except.ok (data.filter (fun r =>
          (r.r < (l.getD 1 0 : ℚ)) && ((l.getD 0 0 : ℚ) ≤ r.r)))
      else Except.error (PyErr.valueError "xlim must be None, int or list of 2 ints")
  | XLim.other => Except.error (PyErr.valueError "xlim must be None, int or list of 2 ints")

/-- An `xlim`-style argument whose shape none of the dispatch branches
recognises: a list whose length is not 2, or a value of another type. -/
def invalidShape : XLim → Prop
  | XLim.list l => l.length ≠ 2
  | XLim.other => True
  | _ => False

instance : DecidablePred invalidShape := fun xl => by
  cases xl <;> simp only [invalidShape] <;> infer_instance

/-- Whether an embedded Python computation raised a `ValueError`. -/
def raisesValueError {α : Type} : Except PyErr α → Bool
  | Except.error (PyErr.valueError _) => true
  | _ => false

/-- Unfolding lemma for `sliceStep` on a nonempty list. -/
theorem sliceStep_cons {α : Type} (a : α) (as : List α) (k : ℕ) :
    sliceStep (a :: as) k = a :: sliceStep (as.drop (k - 1)) k := by
  rw [sliceStep]

/-- C2 (counterexample): `postprocess_gnf` does *not* raise a `ValueError` on
an unrecognized `xlim` shape — a 3-element list leaves the local variable
`data` unassigned, and the call fails with a `NameError` instead. -/
theorem claim_C2_counterexample :
    postprocess_gnf [⟨1, 1⟩] 1 (XLim.list [1, 2, 3]) 3 =
      Except.error PyErr.nameError ∧
    raisesValueError (postprocess_gnf [⟨1, 1⟩] 1 (XLim.list [1, 2, 3]) 3) = false := by
  constructor <;> rfl

/-- C2 (amended): for every argument whose shape is neither `None`, nor an
`int`, nor a 2-element list, the dispatches of `plot_std`, `plot_kinetics`,
`corr_length` and `plot_correlation` all raise a `ValueError` with a
descriptive message (`postprocess_gnf`, by contrast, raises a `NameError`). -/
theorem claim_C2 (xl : XLim) (h : invalidShape xl) (k_data : List KRow)
    (i_data : List IRow) (rdata : List RRow) (cdata : List CRow)
    (seg_length fps : ℚ) :
    plot_std_tlim k_data seg_length fps xl =
      Except.error (PyErr.valueError "tlim must be None, int or list of 2 int") ∧
    plot_kinetics_tlim k_data i_data seg_length fps xl =
      Except.error (PyErr.valueError "tlim should be None, int or list of 2 int") ∧
    corr_length_range rdata xl =
      Except.error (PyErr.valueError "fitting_range should be None, int or list of 2 int") ∧
    plot_correlation_xlim cdata xl =
      Except.error (PyErr.valueError "xlim must be None, int or list of 2 ints") := by
  cases xl with
  | none => exact absurd h (by simp [invalidShape])
  | int t => exact absurd h (by simp [invalidShape])
  | list l =>
      have hl : l.length ≠ 2 := h
      refine ⟨?_, ?_, ?_, ?_⟩ <;>
        simp [plot_std_tlim, plot_kinetics_tlim, corr_length_range,
          plot_correlation_xlim, hl]
  | other => exact ⟨rfl, rfl, rfl, rfl⟩

/-- C2 witness: the amended theorem applied to the concrete invalid argument
`[1, 2, 3]` and empty data. -/
theorem claim_C2_witness :
    invalidShape (XLim.list [1, 2, 3]) ∧
      plot_std_tlim [] 100 10 (XLim.list [1, 2, 3]) =
        Except.error (PyErr.valueError "tlim must be None, int or list of 2 int") := by
  refine ⟨by decide, ?_⟩
  exact (claim_C2 (XLim.list [1, 2, 3]) (by decide) [] [] [] [] 100 10).1

/-- C3 (counterexample): the first `y` value of `postprocess_gnf` is not
always 1 — when the `xlim` filter empties the selection, `yy.iat[0]` raises
an `IndexError` and no `y` series is returned at all. -/
theorem claim_C3_counterexample :
    postprocess_gnf [⟨100, 1⟩] 1 (XLim.int 0) 3 = Except.error PyErr.indexError ∧
    (postprocess_gnf [⟨100, 1⟩] 1 (XLim.int 0) 3).isOk = false := by
  have hf : gnfFilter [⟨100, 1⟩] 1 (XLim.int 0) = some [] := by
    norm_num [gnfFilter]
  have : postprocess_gnf [⟨100, 1⟩] 1 (XLim.int 0) 3 = Except.error PyErr.indexError := by
    rw [postprocess_gnf, hf]
    simp
  exact ⟨this, by rw [this]; rfl⟩

/-- C3 (amended): whenever the `xlim`-filtered data is nonempty, its first
row has `n > 0` and `d ≠ 0`, and the slice step `sparse` is nonzero,
`postprocess_gnf` succeeds and the first element of the returned `y` series
is exactly 1. -/
theorem claim_C3 (gnf : List GnfRow) (lb : ℚ) (xlim : XLim) (sparse : ℕ)
    (r0 : GnfRow) (rest : List GnfRow)
    (hf : gnfFilter gnf lb xlim = some (r0 :: rest))
    (hn : 0 < r0.n) (hd : r0.d ≠ 0) (hs : sparse ≠ 0) :
    ∃ x y, postprocess_gnf gnf lb xlim sparse = Except.ok (x, y) ∧
      y.head? = some 1 := by
  have hy0 : ((r0.d : ℝ) / Real.sqrt (r0.n : ℝ)) ≠ 0 := by
    apply div_ne_zero
    · exact_mod_cast hd
    · exact ne_of_gt (Real.sqrt_pos.mpr (by exact_mod_cast hn))
  have hres : postprocess_gnf gnf lb xlim sparse =
      Except.ok
        (sliceStep ((r0 :: rest).map fun r => (r.n : ℝ) / (lb : ℝ) ^ 2) sparse,
         sliceStep (((r0 :: rest).map fun r => (r.d : ℝ) / Real.sqrt (r.n : ℝ)).map
           (· / ((r0.d : ℝ) / Real.sqrt (r0.n : ℝ)))) sparse) := by
    rw [postprocess_gnf, hf]
    simp only [List.map_cons, List.head?_cons, hs, if_false]
  refine ⟨_, _, hres, ?_⟩
  rw [List.map_cons, List.map_cons, sliceStep_cons, List.head?_cons, div_self hy0]

/-- C3 witness: the amended theorem applied to a one-row table with
`n = 1`, `d = 1`, `lb = 1`, no `xlim` restriction and `sparse = 3`. -/
theorem claim_C3_witness :
    ∃ x y, postprocess_gnf [⟨1, 1⟩] 1 XLim.none 3 = Except.ok (x, y) ∧
      y.head? = some 1 :=
  claim_C3 [⟨1, 1⟩] 1 XLim.none 3 ⟨1, 1⟩ [] (by rfl) (by norm_num) (by norm_num)
    (by norm_num)

/-- C4 (counterexample): on a table containing a row with negative `n`,
filtering with the integer bound `5` keeps the row while filtering with the
list `[0, 5]` drops it, so the two forms do not select the same rows. -/
theorem claim_C4_counterexample :
    gnfFilter [⟨-1, 1⟩] 1 (XLim.int 5) ≠ gnfFilter [⟨-1, 1⟩] 1 (XLim.list [0, 5]) := by
  have h1 : gnfFilter [⟨-1, 1⟩] 1 (XLim.int 5) = some [⟨-1, 1⟩] := by
    norm_num [gnfFilter]
  have h2 : gnfFilter [⟨-1, 1⟩] 1 (XLim.list [0, 5]) = some [] := by
    norm_num [gnfFilter]
  rw [h1, h2]
  simp

/-- C4 (amended): provided every row has nonnegative `n` (true of all GNF
data, where `n` is a window area) — respectively nonnegative
`(segment − 1) * seg_length` — the integer filter form `t` selects exactly
the rows of the list form `[0, t]`, in `postprocess_gnf` and in `plot_std`,
and `postprocess_gnf` consequently returns the same result. -/
theorem claim_C4 (gnf : List GnfRow) (k_data : List KRow)
    (lb seg_length fps : ℚ) (t : ℤ) (sparse : ℕ)
    (h1 : ∀ r ∈ gnf, 0 ≤ r.n)
    (h2 : ∀ r ∈ k_data, 0 ≤ (r.segment - 1) * seg_length) :
    gnfFilter gnf lb (XLim.int t) = gnfFilter gnf lb (XLim.list [0, t]) ∧
    postprocess_gnf gnf lb (XLim.int t) sparse =
      postprocess_gnf gnf lb (XLim.list [0, t]) sparse ∧
    plot_std_tlim k_data seg_length fps (XLim.int t) =
      plot_std_tlim k_data seg_length fps (XLim.list [0, t]) := by
  have hg : gnfFilter gnf lb (XLim.int t) = gnfFilter gnf lb (XLim.list [0, t]) := by
    simp only [gnfFilter, List.length_cons, List.length_nil, if_true]
    congr 1
    refine (List.filter_congr (fun r hr => ?_)).symm
    have h0 : (0 : ℚ) ≤ r.n := h1 r hr
    rw [Bool.eq_iff_iff]
    simp only [List.getD_cons_zero, List.getD_cons_succ, Int.cast_zero, zero_mul,
      Bool.and_eq_true, decide_eq_true_eq]
    exact ⟨fun h => h.2, fun h => ⟨h0, h⟩⟩
  refine ⟨hg, ?_, ?_⟩
  · rw [postprocess_gnf, postprocess_gnf, hg]
  · simp only [plot_std_tlim, List.length_cons, List.length_nil, if_true]
    congr 1
    refine (List.filter_congr (fun r hr => ?_)).symm
    have h0 : (0 : ℚ) ≤ (r.segment - 1) * seg_length := h2 r hr
    rw [Bool.eq_iff_iff]
    simp only [List.getD_cons_zero, List.getD_cons_succ, Int.cast_zero, zero_mul,
      Bool.and_eq_true, decide_eq_true_eq]
    exact ⟨fun h => h.1, fun h => ⟨h, h0⟩⟩

/-- C4 witness: the amended theorem applied to concrete one-row tables with
nonnegative `n` and `(segment − 1) * seg_length`. -/
theorem claim_C4_witness :
    (∀ r ∈ [(⟨4, 2⟩ : GnfRow)], 0 ≤ r.n) ∧
    gnfFilter [⟨4, 2⟩] 1 (XLim.int 5) = gnfFilter [⟨4, 2⟩] 1 (XLim.list [0, 5]) := by
  have hn : ∀ r ∈ [(⟨4, 2⟩ : GnfRow)], 0 ≤ r.n := by
    intro r hr
    rw [List.mem_singleton.mp hr]
    norm_num
  have hk : ∀ r ∈ [(⟨4, 2, 1⟩ : KRow)], 0 ≤ (r.segment - 1) * (100 : ℚ) := by
    intro r hr
    rw [List.mem_singleton.mp hr]
    norm_num
  exact ⟨hn, (claim_C4 [⟨4, 2⟩] [⟨4, 2, 1⟩] 1 100 10 5 3 hn hk).1⟩

/-! ## `average_data` (corr_utils.py, lines 593–627)

A CSV file is modelled as an association list from column labels to columns
of rational values.  The loop accumulates the selected columns of each file
into `temp` (`temp += data[columns]`), counts files in `k`, and finally
returns `pd.concat([temp / k, data[other_cols]], axis=1)` where `data` is
the last file read and `other_cols` are its columns not in `columns`. -/

/-- A CSV table: an association list from column label to column values. -/
abbrev Csv : Type := List (String × List ℚ)

/-- Look up a column by label (first match, like pandas `data[label]`). -/
def lookupCol (f : Csv) (lab : String) : Option (List ℚ) :=
  (f.find? (fun p => p.1 == lab)).map (fun p => p.2)

/-- Python `label in data`: does the table have a column with this label? -/
def hasCol (f : Csv) (lab : String) : Bool :=
  (f.find? (fun p => p.1 == lab)).isSome

/-- pandas `data[columns]`: the selected columns, in the order of `columns`. -/
def selectCols (f : Csv) (cols : List String) : Csv :=
  cols.map (fun c => (c, (lookupCol f c).getD []))

/-- pandas `temp += data[columns]` for two tables with matching layout:
columnwise, elementwise addition. -/
def addCols (a b : Csv) : Csv :=
  (a.zip b).map (fun p => (p.1.1, p.1.2.zipWith (· + ·) p.2.2))

/-- pandas `temp / k`: divide every value by the scalar `k`. -/
def divCsv (c : Csv) (k : ℕ) : Csv :=
  c.map (fun p => (p.1, p.2.map (fun x => x / (k : ℚ))))

/-- The loop of `average_data` (corr_utils.py lines 604–617): for each file,
check that every requested column exists (else `IndexError`), then
accumulate the selected columns and count the files.  Returns the final
`(k, temp, data)` where `data` is the last file read. -/
def adGo (cols : List String) : List Csv → ℕ → Csv → Csv →
    Except PyErr (ℕ × Csv × Csv)
  | [], k, temp, data => Except.ok (k, temp, data)
  | f :: rest, k, temp, _ =>
      if cols.all (fun c => hasCol f c) then
        adGo cols rest (k + 1)
          (if k = 0 then selectCols f cols else addCols temp (selectCols f cols)) f
      else Except.error PyErr.indexError

/-- `average_data(directory, columns)` (corr_utils.py lines 593–627), with
the directory contents given as the list of parsed CSV files in iteration
order.  An empty directory leaves `data` unbound (`NameError` at
`data.columns`). -/
def average_data (files : List Csv) (cols : List String) : Except PyErr Csv :=
  match files with
  | [] => Except.error PyErr.nameError
  | _ :: _ =>
    match adGo cols files 0 [] [] with
    | Except.error e => Except.error e
    | Except.ok (k, temp, data) =>
      let other := (data.map Prod.fst).filter (fun lab => ¬ lab ∈ cols)
      Except.ok (divCsv temp k ++ selectCols data other)

/-- Multiply every value of a table by the natural number `j` (the shape of
`temp` after `j` identical files have been accumulated). -/
def scaleCsv (j : ℕ) (c : Csv) : Csv :=
  c.map (fun p => (p.1, p.2.map (fun x => (j : ℚ) * x)))

/-- A list is unchanged by a map that fixes each of its elements. -/
theorem map_eq_self_of {α : Type} (l : List α) (f : α → α)
    (h : ∀ x ∈ l, f x = x) : l.map f = l := by
  induction l with
  | nil => rfl
  | cons a as ih =>
      rw [List.map_cons, h a (List.mem_cons_self a as),
        ih (fun x hx => h x (List.mem_cons_of_mem a hx))]

theorem scaleCsv_one (c : Csv) : scaleCsv 1 c = c := by
  unfold scaleCsv
  apply map_eq_self_of
  intro p _
  rw [map_eq_self_of p.2 _ (fun x _ => by rw [Nat.cast_one, one_mul])]

/-- Adding one more copy of `s` to `j` accumulated copies yields `j + 1`
accumulated copies. -/
theorem addCols_scale (j : ℕ) (s : Csv) :
    addCols (scaleCsv j s) s = scaleCsv (j + 1) s := by
  induction s with
  | nil => rfl
  | cons p rest ih =>
      obtain ⟨lab, v⟩ := p
      unfold addCols scaleCsv at ih ⊢
      rw [List.map_cons, List.map_cons, List.zip_cons_cons, List.map_cons]
      refine congrArg₂ List.cons ?_ ih
      refine congrArg (Prod.mk lab) ?_
      induction v with
      | nil => rfl
      | cons x xs ihx =>
          rw [List.map_cons, List.map_cons, List.zipWith_cons_cons, ihx]
          refine congrArg₂ List.cons ?_ rfl
          push_cast
          ring

/-- Dividing `k` accumulated copies of `s` by `k` recovers `s`. -/
theorem divCsv_scale (k : ℕ) (hk : k ≠ 0) (s : Csv) :
    divCsv (scaleCsv k s) k = s := by
  unfold divCsv scaleCsv
  rw [List.map_map]
  apply map_eq_self_of
  intro p _
  simp only [Function.comp_apply]
  rw [List.map_map]
  conv_rhs => rw [(rfl : p = (p.1, p.2))]
  congr 1
  apply map_eq_self_of
  intro x _
  simp only [Function.comp_apply]
  exact mul_div_cancel_left₀ x (by exact_mod_cast hk)

/-- Running the loop over `m` further copies of `f`, starting from `j ≥ 1`
accumulated copies, accumulates `j + m` copies. -/
theorem adGo_replicate (cols : List String) (f : Csv)
    (hall : cols.all (fun c => hasCol f c) = true) :
    ∀ (m j : ℕ), j ≠ 0 →
      adGo cols (List.replicate m f) j (scaleCsv j (selectCols f cols)) f =
        Except.ok (j + m, scaleCsv (j + m) (selectCols f cols), f) := by
  intro m
  induction m with
  | zero => intro j _; rfl
  | succ m ih =>
      intro j hj
      rw [List.replicate_succ, adGo, if_pos hall, if_neg hj, addCols_scale,
        ih (j + 1) (Nat.succ_ne_zero j)]
      have harith : j + 1 + m = j + (m + 1) := by omega
      rw [harith]

theorem selectCols_labels (f : Csv) (cols : List String) :
    (selectCols f cols).map Prod.fst = cols := by
  unfold selectCols
  rw [List.map_map]
  exact map_eq_self_of cols _ (fun c _ => rfl)

/-- If a column with label `c` exists, `lookupCol` on the selection returns
the looked-up column of the underlying table. -/
theorem lookupCol_selectCols (f : Csv) (cols : List String) (c : String)
    (hc : c ∈ cols) (hf : hasCol f c = true) :
    lookupCol (selectCols f cols) c = lookupCol f c := by
  obtain ⟨v, hv⟩ : ∃ v, lookupCol f c = some v := by
    unfold hasCol at hf
    unfold lookupCol
    obtain ⟨p, hp⟩ := Option.isSome_iff_exists.mp hf
    exact ⟨p.2, by rw [hp]; rfl⟩
  rw [hv]
  induction cols with
  | nil => cases hc
  | cons c0 cs ih =>
      rw [List.mem_cons] at hc
      by_cases h0 : c0 = c
      · subst h0
        unfold lookupCol selectCols
        rw [List.map_cons, List.find?_cons_of_pos _ (by simp), Option.map_some']
        rw [hv, Option.getD_some]
      · have hc' : c ∈ cs := hc.resolve_left (fun h => h0 h.symm)
        unfold lookupCol selectCols at ih ⊢
        rw [List.map_cons, List.find?_cons_of_neg _ (by simp [h0])]
        exact ih hc'

/-- `label in data` holds exactly when looking the label up succeeds. -/
theorem hasCol_eq_isSome (f : Csv) (c : String) :
    hasCol f c = (lookupCol f c).isSome := by
  unfold hasCol lookupCol
  rw [Option.isSome_map']

/-- Looking a label up in a concatenated table finds it on the left when the
left table has the column. -/
theorem lookupCol_append_left (a b : Csv) (c : String)
    (h : hasCol a c = true) : lookupCol (a ++ b) c = lookupCol a c := by
  unfold lookupCol
  rw [List.find?_append]
  unfold hasCol at h
  obtain ⟨p, hp⟩ := Option.isSome_iff_exists.mp h
  rw [hp, Option.or_some]

/-- Looking a label up in a concatenated table falls through to the right
table when the left table does not have the column. -/
theorem lookupCol_append_right (a b : Csv) (c : String)
    (h : hasCol a c = false) : lookupCol (a ++ b) c = lookupCol b c := by
  unfold lookupCol
  rw [List.find?_append]
  unfold hasCol at h
  cases hfind : List.find? (fun p => p.1 == c) a with
  | none => rw [Option.none_or]
  | some p => rw [hfind] at h; cases h

/-- C7: averaging `k ≥ 1` identical files that contain all requested columns
returns, in each requested column, exactly the values of the single file
(summing `k` equal columns and dividing by `k` is the identity in exact
arithmetic). -/
theorem claim_C7 (k : ℕ) (hk : 1 ≤ k) (f : Csv) (cols : List String)
    (hcols : ∀ c ∈ cols, hasCol f c = true) :
    ∃ out, average_data (List.replicate k f) cols = Except.ok out ∧
      ∀ c ∈ cols, lookupCol out c = lookupCol f c := by
  have hall : cols.all (fun c => hasCol f c) = true := List.all_eq_true.mpr hcols
  obtain ⟨m, rfl⟩ : ∃ m, k = m + 1 := ⟨k - 1, by omega⟩
  have hloop : adGo cols (List.replicate (m + 1) f) 0 [] [] =
      Except.ok (1 + m, scaleCsv (1 + m) (selectCols f cols), f) := by
    rw [List.replicate_succ, adGo, if_pos hall, if_pos rfl]
    calc adGo cols (List.replicate m f) 1 (selectCols f cols) f
        = adGo cols (List.replicate m f) 1 (scaleCsv 1 (selectCols f cols)) f := by
          rw [scaleCsv_one]
      _ = Except.ok (1 + m, scaleCsv (1 + m) (selectCols f cols), f) :=
          adGo_replicate cols f hall m 1 one_ne_zero
  have hout : average_data (List.replicate (m + 1) f) cols =
      Except.ok (selectCols f cols ++
        selectCols f ((f.map Prod.fst).filter (fun lab => ¬ lab ∈ cols))) := by
    rw [List.replicate_succ]
    unfold average_data
    rw [← List.replicate_succ, hloop]
    simp only []
    rw [divCsv_scale (1 + m) (by omega), List.replicate_succ]
  refine ⟨_, hout, fun c hc => ?_⟩
  have hsel : lookupCol (selectCols f cols) c = lookupCol f c :=
    lookupCol_selectCols f cols c hc (hcols c hc)
  rw [lookupCol_append_left _ _ c
    (by rw [hasCol_eq_isSome, hsel, ← hasCol_eq_isSome]; exact hcols c hc), hsel]

/-- C7 witness: two identical two-column files, averaged over both columns. -/
theorem claim_C7_witness :
    (∀ c ∈ ["CA", "CV"], hasCol [("CA", [(1 : ℚ), 2]), ("CV", [3])] c = true) ∧
    ∃ out, average_data
        (List.replicate 2 [("CA", [(1 : ℚ), 2]), ("CV", [3])]) ["CA", "CV"] =
        Except.ok out ∧
      ∀ c ∈ ["CA", "CV"],
        lookupCol out c = lookupCol [("CA", [(1 : ℚ), 2]), ("CV", [3])] c := by
  refine ⟨by decide, ?_⟩
  exact claim_C7 2 (by omega) [("CA", [(1 : ℚ), 2]), ("CV", [3])] ["CA", "CV"] (by decide)

/-- Labels of the two layout-preserving table operations. -/
theorem addCols_labels (a b : Csv) (L : List String)
    (ha : a.map Prod.fst = L) (hb : b.map Prod.fst = L) :
    (addCols a b).map Prod.fst = L := by
  induction a generalizing b L with
  | nil => rw [List.map_nil] at ha; subst ha; rw [List.map_eq_nil_iff] at hb; subst hb; rfl
  | cons p a' ih =>
      cases b with
      | nil => rw [List.map_nil] at hb; subst hb; cases ha
      | cons q b' =>
          cases L with
          | nil => cases ha
          | cons l L' =>
              rw [List.map_cons] at ha hb
              unfold addCols
              rw [List.zip_cons_cons, List.map_cons, List.map_cons]
              refine congrArg₂ List.cons ?_ (ih b' L' ?_ ?_)
              · exact (List.cons.injEq _ _ _ _ ▸ ha).1
              · exact (List.cons.injEq _ _ _ _ ▸ ha).2
              · exact (List.cons.injEq _ _ _ _ ▸ hb).2

theorem divCsv_labels (c : Csv) (k : ℕ) :
    (divCsv c k).map Prod.fst = c.map Prod.fst := by
  unfold divCsv
  rw [List.map_map]
  rfl

/-- The loop of `average_data`, on a nonempty list of files that all contain
the requested columns, succeeds, ends with `data` being the last file, and
keeps the labels of `temp` equal to `cols`. -/
theorem adGo_spec (cols : List String) :
    ∀ (files : List Csv) (j : ℕ) (temp d : Csv),
      files ≠ [] →
      (∀ f ∈ files, cols.all (fun c => hasCol f c) = true) →
      (j ≠ 0 → temp.map Prod.fst = cols) →
      ∃ k' temp' g, adGo cols files j temp d = Except.ok (k', temp', g) ∧
        temp'.map Prod.fst = cols ∧ files.getLast? = some g := by
  intro files
  induction files with
  | nil => intro _ _ _ hne _ _; exact absurd rfl hne
  | cons f rest ih =>
      intro j temp d _ hall htemp
      have hf : cols.all (fun c => hasCol f c) = true :=
        hall f (List.mem_cons_self f rest)
      have hlab : (if j = 0 then selectCols f cols
          else addCols temp (selectCols f cols)).map Prod.fst = cols := by
        by_cases hj : j = 0
        · rw [if_pos hj]; exact selectCols_labels f cols
        · rw [if_neg hj]
          exact addCols_labels _ _ _ (htemp hj) (selectCols_labels f cols)
      cases rest with
      | nil =>
          refine ⟨j + 1, _, f, ?_, hlab, rfl⟩
          rw [adGo, if_pos hf]
          rfl
      | cons f2 rest2 =>
          obtain ⟨k', temp', g, hrun, hlab', hlast⟩ :=
            ih (j + 1) (if j = 0 then selectCols f cols
              else addCols temp (selectCols f cols)) f (List.cons_ne_nil f2 rest2)
              (fun x hx => hall x (List.mem_cons_of_mem f hx))
              (fun _ => hlab)
          refine ⟨k', temp', g, ?_, hlab', ?_⟩
          · rw [adGo, if_pos hf]; exact hrun
          · rw [List.getLast?_cons_cons]; exact hlast

/-- C9: in the result of `average_data`, every column of the last file whose
label is not among the averaged `columns` is copied verbatim from that last
file (the last CSV in directory iteration order). -/
theorem claim_C9 (fs : List Csv) (g : Csv) (cols : List String)
    (hsucc : ∀ file ∈ fs ++ [g], ∀ c ∈ cols, hasCol file c = true)
    (lab : String) (hlab : ¬ lab ∈ cols) (hing : hasCol g lab = true) :
    ∃ out, average_data (fs ++ [g]) cols = Except.ok out ∧
      lookupCol out lab = lookupCol g lab := by
  obtain ⟨k', temp', gl, hrun, hlab', hlast⟩ :=
    adGo_spec cols (fs ++ [g]) 0 [] [] (by simp)
      (fun x hx => List.all_eq_true.mpr (hsucc x hx)) (fun h => absurd rfl h)
  have hg : g = gl := by
    rw [List.getLast?_concat] at hlast
    exact Option.some_inj.mp hlast
  subst hg
  obtain ⟨x, xs, hxx⟩ : ∃ x xs, fs ++ [g] = x :: xs := by
    cases fs with
    | nil => exact ⟨g, [], rfl⟩
    | cons a as => exact ⟨a, as ++ [g], by simp⟩
  rw [hxx] at hrun
  have hout : average_data (fs ++ [g]) cols =
      Except.ok (divCsv temp' k' ++
        selectCols g ((g.map Prod.fst).filter (fun l => ¬ l ∈ cols))) := by
    rw [hxx]
    unfold average_data
    rw [hrun]
  refine ⟨_, hout, ?_⟩
  have hnotleft : hasCol (divCsv temp' k') lab = false := by
    unfold hasCol
    have hfind : List.find? (fun p => p.1 == lab) (divCsv temp' k') = none := by
      rw [List.find?_eq_none]
      intro p hp
      have hmemc : p.1 ∈ cols := by
        rw [← hlab', ← divCsv_labels temp' k']
        exact List.mem_map_of_mem Prod.fst hp
      intro he
      exact hlab ((beq_iff_eq.mp he) ▸ hmemc)
    rw [hfind]
    rfl
  rw [lookupCol_append_right _ _ lab hnotleft]
  have hmem : lab ∈ (g.map Prod.fst).filter (fun l => ¬ l ∈ cols) := by
    rw [List.mem_filter]
    refine ⟨?_, by simp [hlab]⟩
    rw [hasCol_eq_isSome] at hing
    obtain ⟨v, hv⟩ := Option.isSome_iff_exists.mp hing
    unfold lookupCol at hv
    obtain ⟨p, hp, hpv⟩ := Option.map_eq_some'.mp hv
    have := List.find?_some hp
    rw [beq_iff_eq] at this
    rw [← this]
    exact List.mem_map_of_mem Prod.fst (List.mem_of_find?_eq_some hp)
  exact lookupCol_selectCols g _ lab hmem hing

/-- C9 witness: two files; the column `extra` is not averaged and comes from
the second (last) file. -/
theorem claim_C9_witness :
    ∃ out, average_data
        [[("CA", [(1 : ℚ)]), ("extra", [5])], [("CA", [(3 : ℚ)]), ("extra", [7])]]
        ["CA"] = Except.ok out ∧
      lookupCol out "extra" = lookupCol [("CA", [(3 : ℚ)]), ("extra", [7])] "extra" :=
  claim_C9 [[("CA", [(1 : ℚ)]), ("extra", [5])]] [("CA", [(3 : ℚ)]), ("extra", [7])]
    ["CA"] (by decide) "extra" (by decide) (by decide)

/-! ## `kinetics_eo_smooth` (corr_utils.py, lines 459–481)

The input is a dict `(t0, alpha, t1, i, t2, E, OP)` of arrays; Python dicts
preserve insertion order, so it is modelled as an association list.  The
Gaussian filter is `scipy.ndimage.gaussian_filter1d`, a library function
external to this repository, so the embedding is parametrized by it:
`gf σ v` stands for `gaussian_filter1d(v, σ)`. -/

/-- Python `kw.startswith('t')` for the one-character prefix `'t'`: the
first character of the key is `t` (false on the empty string). -/
def startsWithT (s : String) : Bool :=
  match s.data with
  | [] => false
  | c :: _ => c == 't'

/-- `kinetics_eo_smooth(data)`: every entry whose key does not start with
`'t'` is replaced by its Gaussian-smoothed version with
`sigma = int(len(data[kw]) / 15) + 1`; entries whose key starts with `'t'`
are passed through. -/
def kinetics_eo_smooth (gf : ℕ → List ℚ → List ℚ)
    (data : List (String × List ℚ)) : List (String × List ℚ) :=
  data.map (fun p =>
    if startsWithT p.1 = false then (p.1, gf (p.2.length / 15 + 1) p.2)
    else (p.1, p.2))

/-- C10: `kinetics_eo_smooth` returns a dict with the same keys in the same
order; every entry whose key starts with `'t'` is returned unchanged, and
every other entry is replaced by the Gaussian filter applied with
`sigma = len / 15 + 1`. -/
theorem claim_C10 (gf : ℕ → List ℚ → List ℚ) (data : List (String × List ℚ))
    (i : ℕ) (p : String × List ℚ) (hp : data[i]? = some p) :
    (kinetics_eo_smooth gf data).length = data.length ∧
    (startsWithT p.1 = true → (kinetics_eo_smooth gf data)[i]? = some p) ∧
    (startsWithT p.1 = false →
      (kinetics_eo_smooth gf data)[i]? =
        some (p.1, gf (p.2.length / 15 + 1) p.2)) := by
  refine ⟨by rw [kinetics_eo_smooth, List.length_map], ?_, ?_⟩
  · intro ht
    rw [kinetics_eo_smooth, List.getElem?_map, hp, Option.map_some']
    rw [if_neg (by rw [ht]; simp), Prod.mk.eta]
  · intro ht
    rw [kinetics_eo_smooth, List.getElem?_map, hp, Option.map_some', if_pos ht]

/-- C10 witness: a two-entry dict with a time key and a data key; the time
entry is returned unchanged. -/
theorem claim_C10_witness :
    ([("t0", [(1 : ℚ)]), ("alpha", [2])] : List (String × List ℚ))[0]? =
      some ("t0", [(1 : ℚ)]) ∧
    (kinetics_eo_smooth (fun _ v => v) [("t0", [(1 : ℚ)]), ("alpha", [2])])[0]? =
      some ("t0", [(1 : ℚ)]) := by
  refine ⟨rfl, ?_⟩
  exact ((claim_C10 (fun _ v => v) [("t0", [(1 : ℚ)]), ("alpha", [2])] 0
    ("t0", [(1 : ℚ)]) rfl).2).1 (by decide)

/-! ## The window-size set (df2_nobp.py lines 14–18, corr_utils.py 514–518)

```python
size_min = 5
step = 50*size_min
L = min(img.shape)
boxsize = np.unique(np.floor(np.logspace(np.log10(size_min),
                    np.log10((L-size_min)/2),100)))
```

`np.logspace(a, b, 100)` is `10 ** np.linspace(a, b, 100)`, with the
endpoints included; `np.unique` sorts and removes duplicates. -/

/-- Remove *adjacent* duplicates (what `np.unique` does after sorting). -/
def dedupAdj : List ℤ → List ℤ
  | [] => []
  | [a] => [a]
  | a :: b :: l => if a = b then dedupAdj (b :: l) else a :: dedupAdj (b :: l)

/-- `np.unique`: sort ascending, then remove adjacent duplicates. -/
def npUnique (l : List ℤ) : List ℤ :=
  dedupAdj (List.insertionSort (· ≤ ·) l)

/-- `np.logspace(a, b, 100)`: the 100 points `10 ** (a + i*(b-a)/99)`,
`i = 0, …, 99`. -/
noncomputable def logspace100 (a b : ℝ) : List ℝ :=
  (List.range 100).map (fun i : ℕ => (10 : ℝ) ^ (a + (i : ℝ) * (b - a) / 99))

/-- The window-size set derived from an image whose shorter side is `L`:
`np.unique(np.floor(np.logspace(np.log10(5), np.log10((L-5)/2), 100)))`.
In Python 3, `(L-5)/2` is true (float) division. -/
noncomputable def boxsizeList (L : ℕ) : List ℤ :=
  npUnique ((logspace100 (Real.logb 10 5)
    (Real.logb 10 (((L : ℝ) - 5) / 2))).map Int.floor)

theorem mem_dedupAdj (l : List ℤ) (x : ℤ) : x ∈ dedupAdj l ↔ x ∈ l := by
  induction l with
  | nil => rfl
  | cons a l ih =>
      cases l with
      | nil => rfl
      | cons b l2 =>
          rw [dedupAdj]
          by_cases hab : a = b
          · rw [if_pos hab, ih]
            subst hab
            constructor
            · exact fun h => List.mem_cons_of_mem a h
            · intro h
              rcases List.mem_cons.mp h with h1 | h1
              · exact h1 ▸ List.mem_cons_self a l2
              · exact h1
          · rw [if_neg hab, List.mem_cons, List.mem_cons, ih]

theorem mem_npUnique (l : List ℤ) (x : ℤ) : x ∈ npUnique l ↔ x ∈ l := by
  rw [npUnique, mem_dedupAdj]
  exact (List.perm_insertionSort (· ≤ ·) l).mem_iff

theorem head?_dedupAdj (l : List ℤ) (a : ℤ) :
    (dedupAdj (a :: l)).head? = some a := by
  induction l generalizing a with
  | nil => rfl
  | cons b l2 ih =>
      rw [dedupAdj]
      by_cases hab : a = b
      · rw [if_pos hab, hab, ih]
      · rw [if_neg hab, List.head?_cons]

theorem chain'_lt_dedupAdj (l : List ℤ) (h : List.Chain' (· ≤ ·) l) :
    List.Chain' (· < ·) (dedupAdj l) := by
  induction l with
  | nil => exact List.chain'_nil
  | cons a l ih =>
      cases l with
      | nil => exact List.chain'_singleton a
      | cons b l2 =>
          rw [List.chain'_cons] at h
          rw [dedupAdj]
          by_cases hab : a = b
          · rw [if_pos hab]
            exact ih h.2
          · rw [if_neg hab]
            rw [List.chain'_cons']
            refine ⟨?_, ih h.2⟩
            intro y hy
            rw [head?_dedupAdj] at hy
            rw [Option.mem_some_iff] at hy
            rw [← hy]
            exact lt_of_le_of_ne h.1 hab

/-- The sorted deduplicated list is strictly increasing. -/
theorem pairwise_lt_npUnique (l : List ℤ) :
    List.Pairwise (· < ·) (npUnique l) := by
  rw [npUnique, ← List.chain'_iff_pairwise]
  apply chain'_lt_dedupAdj
  rw [List.chain'_iff_pairwise]
  exact List.sorted_insertionSort (· ≤ ·) l

/-- Every element of the window-size set lies in `[5, (L − 5)/2]` when
`(L − 5)/2 ≥ 5` (i.e. `L ≥ 15`). -/
theorem boxsize_bounds (L : ℕ) (hL : 15 ≤ L) (s : ℤ) (hs : s ∈ boxsizeList L) :
    (5 : ℤ) ≤ s ∧ (s : ℝ) ≤ ((L : ℝ) - 5) / 2 := by
  have hLr : (15 : ℝ) ≤ (L : ℝ) := by exact_mod_cast hL
  have hb5 : (5 : ℝ) ≤ ((L : ℝ) - 5) / 2 := by linarith
  have hbpos : (0 : ℝ) < ((L : ℝ) - 5) / 2 := by linarith
  have hcd : Real.logb 10 5 ≤ Real.logb 10 (((L : ℝ) - 5) / 2) :=
    Real.logb_le_logb_of_le (by norm_num) (by norm_num) hb5
  have hdc : (0 : ℝ) ≤ Real.logb 10 (((L : ℝ) - 5) / 2) - Real.logb 10 5 :=
    sub_nonneg.mpr hcd
  rw [boxsizeList, mem_npUnique, List.mem_map] at hs
  obtain ⟨v, hv, hfloor⟩ := hs
  rw [logspace100, List.mem_map] at hv
  obtain ⟨i, hi, hvi⟩ := hv
  rw [List.mem_range] at hi
  have hexp_lo : Real.logb 10 5 ≤ Real.logb 10 5 +
      (i : ℝ) * (Real.logb 10 (((L : ℝ) - 5) / 2) - Real.logb 10 5) / 99 := by
    have h1 : (0 : ℝ) ≤
        (i : ℝ) * (Real.logb 10 (((L : ℝ) - 5) / 2) - Real.logb 10 5) / 99 := by
      positivity
    linarith
  have hexp_hi : Real.logb 10 5 +
      (i : ℝ) * (Real.logb 10 (((L : ℝ) - 5) / 2) - Real.logb 10 5) / 99 ≤
      Real.logb 10 (((L : ℝ) - 5) / 2) := by
    have h99 : (i : ℝ) ≤ 99 := by
      have h99n : i ≤ 99 := by omega
      exact_mod_cast h99n
    have hmul : (i : ℝ) * (Real.logb 10 (((L : ℝ) - 5) / 2) - Real.logb 10 5) ≤
        99 * (Real.logb 10 (((L : ℝ) - 5) / 2) - Real.logb 10 5) :=
      mul_le_mul_of_nonneg_right h99 hdc
    linarith
  have hv_lo : (5 : ℝ) ≤ v := by
    have h2 := (Real.rpow_le_rpow_left_iff
      (by norm_num : (1 : ℝ) < 10)).mpr hexp_lo
    rw [hvi] at h2
    rw [Real.rpow_logb (by norm_num) (by norm_num) (by norm_num : (0 : ℝ) < 5)] at h2
    exact h2
  have hv_hi : v ≤ ((L : ℝ) - 5) / 2 := by
    have h2 := (Real.rpow_le_rpow_left_iff
      (by norm_num : (1 : ℝ) < 10)).mpr hexp_hi
    rw [hvi] at h2
    rw [Real.rpow_logb (by norm_num) (by norm_num) hbpos] at h2
    exact h2
  constructor
  · rw [← hfloor]
    exact Int.le_floor.mpr (by exact_mod_cast hv_lo)
  · rw [← hfloor]
    exact (Int.floor_le v).trans hv_hi

/-- C5: when `size_min = 5` and `(L − 5)/2 ≥ 5` (i.e. `L ≥ 15`), every
element of the window-size set lies in the closed interval
`[5, (L − 5)/2]`; in particular no window size is below `size_min` or above
half the image's shorter dimension. -/
theorem claim_C5 (L : ℕ) (hL : 15 ≤ L) (s : ℤ) (hs : s ∈ boxsizeList L) :
    (5 : ℤ) ≤ s ∧ (s : ℝ) ≤ ((L : ℝ) - 5) / 2 :=
  boxsize_bounds L hL s hs

/-- For `L = 15` the two `logspace` endpoints coincide at `log10 5`, every
sample is exactly `5`, and the window-size set is `[5]`. -/
theorem boxsizeList_15 : boxsizeList 15 = [5] := by
  have hb : (((15 : ℕ) : ℝ) - 5) / 2 = 5 := by norm_num
  have hconst : logspace100 (Real.logb 10 5) (Real.logb 10 5) =
      List.replicate 100 ((10 : ℝ) ^ Real.logb 10 5) := by
    rw [logspace100]
    rw [List.map_congr_left (fun i _ => by
      rw [sub_self, mul_zero, zero_div, add_zero])]
    exact List.map_const' (List.range 100) _
  have h5 : (10 : ℝ) ^ Real.logb 10 5 = 5 :=
    Real.rpow_logb (by norm_num) (by norm_num) (by norm_num)
  have hfloor5 : Int.floor (5 : ℝ) = 5 := by norm_num
  have hsorted : List.insertionSort (· ≤ ·) (List.replicate 100 (5 : ℤ)) =
      List.replicate 100 (5 : ℤ) :=
    List.Sorted.insertionSort_eq
      (List.pairwise_replicate.mpr (Or.inr (le_refl (5 : ℤ))))
  have hded : ∀ n : ℕ, dedupAdj (List.replicate (n + 1) (5 : ℤ)) = [5] := by
    intro n
    induction n with
    | zero => rfl
    | succ m ih =>
        rw [List.replicate_succ, List.replicate_succ, dedupAdj, if_pos rfl,
          ← List.replicate_succ, ih]
  rw [boxsizeList, hb, hconst, h5, List.map_replicate, hfloor5, npUnique,
    hsorted, hded 99]

/-- C5 witness: for a 15-pixel shorter side the window-size set is `[5]`,
and its element 5 satisfies both bounds. -/
theorem claim_C5_witness :
    (5 : ℤ) ∈ boxsizeList 15 ∧
      ((5 : ℤ) ≤ 5 ∧ ((5 : ℤ) : ℝ) ≤ (((15 : ℕ) : ℝ) - 5) / 2) := by
  have hmem : (5 : ℤ) ∈ boxsizeList 15 := by
    rw [boxsizeList_15]
    exact List.mem_singleton.mpr rfl
  exact ⟨hmem, claim_C5 15 (by norm_num) 5 hmem⟩

/-! ## The estimator pipeline (df2_nobp.py lines 27–56)

An image is a list of rows of pixel intensities; all frames of a sequence
share the same dimensions.  `corrLib.divide_windows` is imported from
`corrLib.py`, a file of this repository that is not part of the given
source tree, so it is modelled from the spec. -/

/-- A 2D image: a list of rows of pixel intensities. -/
abbrev Image : Type := List (List ℚ)

/-- Width of an image: the length of its first row (`img.shape[1]`). -/
def imgWidth (img : Image) : ℕ := (img.headI).length

/-- Pixel access, defaulting to 0 outside the image. -/
def pixel (img : Image) (r c : ℕ) : ℚ := (img.getD r []).getD c 0

/-- Number of window positions along an axis of extent `dim` for window side
`bs` and stride `step`: positions `0, step, 2·step, …` while the window
fits. -/
def wCount (dim bs step : ℕ) : ℕ :=
  if bs ≤ dim then (dim - bs) / step + 1 else 0

/-- The window start positions along one axis. -/
def wStarts (dim bs step : ℕ) : List ℕ :=
  (List.range (wCount dim bs step)).map (fun i => i * step)

/-- Total intensity of the `bs × bs` window with top-left corner `(r, c)`. -/
def windowSum (img : Image) (r c bs : ℕ) : ℚ :=
  ((List.range bs).map (fun i =>
    ((List.range bs).map (fun j => pixel img (r + i) (c + j))).sum)).sum

/-- Modelled from the spec: `corrLib.divide_windows(img, windowsize=[bs, bs],
step=step)` (from `corrLib.py`, which is missing from the source tree) tiles
the frame into square windows of side `bs` strided by `step` and records
each window's summed pixel intensity, row-major. -/
def divide_windows (img : Image) (bs : ℤ) (step : ℕ) : List ℚ :=
  (wStarts img.length bs.toNat step).flatMap (fun r =>
    (wStarts (imgWidth img) bs.toNat step).map (fun c => windowSum img r c bs.toNat))

/-- A row of the raw DataFrame `df` of df2_nobp.py (lines 27–38): window
intensity `I`, frame `t`, window `size` and window index `number`. -/
structure Row where
  I : ℚ
  t : ℕ
  size : ℤ
  number : ℕ
  deriving DecidableEq, Repr

/-- `pd.DataFrame().assign(I=I.flatten(), t=…, size=bs, number=range(0,
len(I)))`: pair each window intensity with its index, starting at `k`. -/
def mkRows (t : ℕ) (bs : ℤ) : ℕ → List ℚ → List Row
  | _, [] => []
  | k, v :: vs => ⟨v, t, bs, k⟩ :: mkRows t bs (k + 1) vs

/-- The full raw DataFrame `df` (df2_nobp.py lines 27–38): for each frame in
order and each box size in order, the indexed window intensities. -/
def dfRows (boxsize : List ℤ) (imgs : List Image) (step : ℕ) : List Row :=
  imgs.enum.flatMap (fun ti =>
    boxsize.flatMap (fun bs => mkRows ti.1 bs 0 (divide_windows ti.2 bs step)))

/-- A row of `df_out` (df2_nobp.py lines 40–48): `n = s²`,
`d = s² · std(subdata.I)`, with the window size and index. -/
structure OutRow where
  n : ℚ
  d : ℝ
  size : ℤ
  number : ℕ

/-- `df_out` (df2_nobp.py lines 40–48): group by window `number` (in first
occurrence order), then by `size`, and compute `d = s² · np.std(subdata.I)`
and `n = s²` for each group. -/
noncomputable def dfOut (df : List Row) : List OutRow :=
  (dedupFirst (df.map (fun r => r.number))).flatMap (fun k =>
    (dedupFirst ((df.filter (fun r => r.number == k)).map (fun r => r.size))).map
      (fun s : ℤ =>
        ⟨(s : ℚ) ^ 2,
         (s : ℝ) ^ 2 * npStd (((df.filter (fun r => r.number == k)).filter
           (fun r => r.size == s)).map (fun r => r.I)),
         s, k⟩))

/-- A record of the final output `average` (df2_nobp.py lines 50–56): the
mean of the `n` and `d` columns over one window size (the `size` and
`number` columns are dropped before averaging). -/
structure AvgRow where
  n : ℚ
  d : ℝ

/-- `average` (df2_nobp.py lines 50–56): for each `size` of `df_out` in
first-occurrence order, the mean of the remaining columns of the matching
rows. -/
noncomputable def averageOf (dfout : List OutRow) : List AvgRow :=
  (dedupFirst (dfout.map (fun r => r.size))).map (fun s =>
    ⟨qMean ((dfout.filter (fun r => r.size == s)).map (fun r => r.n)),
     rMean ((dfout.filter (fun r => r.size == s)).map (fun r => r.d))⟩)

/-- `min(img.shape)` of the first frame. -/
def minShape (img : Image) : ℕ := min img.length (imgWidth img)

/-- The window-size set of the image sequence, derived from the first frame
(df2_nobp.py lines 13–18). -/
noncomputable def boxsizeOf (imgs : List Image) : List ℤ :=
  boxsizeList (minShape imgs.headI)

/-- The whole estimator of df2_nobp.py (`size_min = 5`,
`step = 50*size_min = 250`): raw windowed intensities, per-window
time-variance records, then the per-size spatial average. -/
noncomputable def df2_nobp (imgs : List Image) : List AvgRow :=
  averageOf (dfOut (dfRows (boxsizeOf imgs) imgs (50 * 5)))

/-! ## C8: an all-zero image sequence gives `d = 0` everywhere -/

theorem pixel_eq_zero (img : Image)
    (h : ∀ row ∈ img, ∀ px ∈ row, px = 0) (r c : ℕ) : pixel img r c = 0 := by
  unfold pixel
  rw [List.getD_eq_getElem?_getD, List.getD_eq_getElem?_getD img r []]
  cases h1 : img[r]? with
  | none => rfl
  | some row =>
      simp only [Option.getD_some]
      cases h2 : row[c]? with
      | none => rfl
      | some px =>
          simp only [Option.getD_some]
          exact h row (List.getElem?_mem h1) px (List.getElem?_mem h2)

theorem windowSum_eq_zero (img : Image)
    (h : ∀ row ∈ img, ∀ px ∈ row, px = 0) (r c bs : ℕ) :
    windowSum img r c bs = 0 := by
  unfold windowSum
  apply List.sum_eq_zero
  intro x hx
  rw [List.mem_map] at hx
  obtain ⟨i, _, hxi⟩ := hx
  rw [← hxi]
  apply List.sum_eq_zero
  intro y hy
  rw [List.mem_map] at hy
  obtain ⟨j, _, hyj⟩ := hy
  rw [← hyj]
  exact pixel_eq_zero img h _ _

theorem divide_windows_eq_zero (img : Image)
    (h : ∀ row ∈ img, ∀ px ∈ row, px = 0) (bs : ℤ) (step : ℕ) :
    ∀ x ∈ divide_windows img bs step, x = 0 := by
  intro x hx
  rw [divide_windows, List.mem_flatMap] at hx
  obtain ⟨r, _, hr⟩ := hx
  rw [List.mem_map] at hr
  obtain ⟨c, _, hc⟩ := hr
  rw [← hc]
  exact windowSum_eq_zero img h r c bs.toNat

theorem mkRows_I_mem (t : ℕ) (bs : ℤ) :
    ∀ (k : ℕ) (l : List ℚ) (r : Row), r ∈ mkRows t bs k l → r.I ∈ l := by
  intro k l
  induction l generalizing k with
  | nil => intro r hr; cases hr
  | cons v vs ih =>
      intro r hr
      rw [mkRows] at hr
      rcases List.mem_cons.mp hr with h1 | h1
      · rw [h1]; exact List.mem_cons_self v vs
      · exact List.mem_cons_of_mem v (ih (k + 1) r h1)

theorem dfRows_I_eq_zero (b : List ℤ) (imgs : List Image) (step : ℕ)
    (hz : ∀ img ∈ imgs, ∀ row ∈ img, ∀ px ∈ row, px = 0) :
    ∀ r ∈ dfRows b imgs step, r.I = 0 := by
  intro r hr
  rw [dfRows, List.mem_flatMap] at hr
  obtain ⟨ti, hti, hr1⟩ := hr
  rw [List.mem_flatMap] at hr1
  obtain ⟨bs, _, hr2⟩ := hr1
  have himg : ti.2 ∈ imgs := List.snd_mem_of_mem_enum hti
  exact divide_windows_eq_zero ti.2 (hz ti.2 himg) bs step r.I
    (mkRows_I_mem ti.1 bs 0 _ r hr2)

theorem qMean_zero (l : List ℚ) (h : ∀ x ∈ l, x = 0) : qMean l = 0 := by
  rw [qMean, List.sum_eq_zero h, zero_div]

theorem popVar_zero (l : List ℚ) (h : ∀ x ∈ l, x = 0) : popVar l = 0 := by
  rw [popVar]
  apply qMean_zero
  intro x hx
  rw [List.mem_map] at hx
  obtain ⟨y, hy, hxy⟩ := hx
  rw [← hxy, h y hy, qMean_zero l h, sub_zero]
  norm_num

theorem npStd_zero (l : List ℚ) (h : ∀ x ∈ l, x = 0) : npStd l = 0 := by
  rw [npStd, popVar_zero l h]
  exact_mod_cast Real.sqrt_zero

theorem dfOut_d_eq_zero (df : List Row) (hI : ∀ r ∈ df, r.I = 0) :
    ∀ o ∈ dfOut df, o.d = 0 := by
  intro o ho
  rw [dfOut, List.mem_flatMap] at ho
  obtain ⟨k, _, ho1⟩ := ho
  rw [List.mem_map] at ho1
  obtain ⟨s, _, ho2⟩ := ho1
  rw [← ho2]
  have hvals : ∀ x ∈ ((df.filter (fun r => r.number == k)).filter
      (fun r => r.size == s)).map (fun r => r.I), x = 0 := by
    intro x hx
    rw [List.mem_map] at hx
    obtain ⟨r, hr, hxr⟩ := hx
    rw [← hxr]
    exact hI r (List.mem_of_mem_filter (List.mem_of_mem_filter hr))
  show (s : ℝ) ^ 2 * npStd _ = 0
  rw [npStd_zero _ hvals, mul_zero]

theorem rMean_zero (l : List ℝ) (h : ∀ x ∈ l, x = 0) : rMean l = 0 := by
  rw [rMean, List.sum_eq_zero h, zero_div]

/-- C8: on an image sequence in which every pixel of every frame is zero,
every fluctuation record of the estimator has `d = 0`. -/
theorem claim_C8 (imgs : List Image)
    (hz : ∀ img ∈ imgs, ∀ row ∈ img, ∀ px ∈ row, px = 0) :
    ∀ rec ∈ df2_nobp imgs, rec.d = 0 := by
  intro rec hrec
  rw [df2_nobp, averageOf, List.mem_map] at hrec
  obtain ⟨s, _, hrec2⟩ := hrec
  rw [← hrec2]
  show rMean _ = 0
  apply rMean_zero
  intro x hx
  rw [List.mem_map] at hx
  obtain ⟨o, ho, hxo⟩ := hx
  rw [← hxo]
  exact dfOut_d_eq_zero _
    (dfRows_I_eq_zero (boxsizeOf imgs) imgs (50 * 5) hz) o
    (List.mem_of_mem_filter ho)

/-- C8 witness: a single 1×1 all-zero frame. -/
theorem claim_C8_witness :
    (∀ img ∈ [[[(0 : ℚ)]]], ∀ row ∈ img, ∀ px ∈ row, px = 0) ∧
    ∀ rec ∈ df2_nobp [[[(0 : ℚ)]]], rec.d = 0 := by
  have h : ∀ img ∈ [[[(0 : ℚ)]]], ∀ row ∈ img, ∀ px ∈ row, px = 0 := by
    intro img himg row hrow px hpx
    rw [List.mem_singleton.mp himg] at hrow
    rw [List.mem_singleton.mp hrow] at hpx
    exact List.mem_singleton.mp hpx
  exact ⟨h, claim_C8 [[[(0 : ℚ)]]] h⟩

/-! ## Properties of first-occurrence deduplication -/

section Dedup

variable {α : Type} [DecidableEq α]

theorem mem_ddAux (l : List α) (seen : List α) (x : α) :
    x ∈ ddAux seen l ↔ x ∈ l ∧ x ∉ seen := by
  induction l generalizing seen with
  | nil => simp [ddAux]
  | cons a as ih =>
      rw [ddAux]
      by_cases ha : a ∈ seen
      · rw [if_pos ha, ih]
        constructor
        · exact fun h => ⟨List.mem_cons_of_mem a h.1, h.2⟩
        · rintro ⟨h1, h2⟩
          rcases List.mem_cons.mp h1 with h3 | h3
          · exact absurd (h3 ▸ ha) h2
          · exact ⟨h3, h2⟩
      · rw [if_neg ha, List.mem_cons, ih]
        simp only [List.mem_cons, not_or]
        constructor
        · rintro (rfl | ⟨h1, h2, h3⟩)
          · exact ⟨Or.inl rfl, ha⟩
          · exact ⟨Or.inr h1, h3⟩
        · rintro ⟨h1 | h1, h2⟩
          · exact Or.inl h1
          · by_cases hxa : x = a
            · exact Or.inl hxa
            · exact Or.inr ⟨h1, hxa, h2⟩

theorem ddAux_congr (l : List α) (seen₁ seen₂ : List α)
    (h : ∀ x, x ∈ seen₁ ↔ x ∈ seen₂) : ddAux seen₁ l = ddAux seen₂ l := by
  induction l generalizing seen₁ seen₂ with
  | nil => rfl
  | cons a as ih =>
      rw [ddAux, ddAux]
      by_cases ha : a ∈ seen₁
      · rw [if_pos ha, if_pos ((h a).mp ha)]
        exact ih seen₁ seen₂ h
      · rw [if_neg ha, if_neg (fun hc => ha ((h a).mpr hc))]
        refine congrArg (List.cons a) (ih _ _ (fun x => ?_))
        rw [List.mem_cons, List.mem_cons, h x]

theorem ddAux_append (l₁ l₂ : List α) (seen : List α) :
    ddAux seen (l₁ ++ l₂) = ddAux seen l₁ ++ ddAux (seen ++ l₁) l₂ := by
  induction l₁ generalizing seen with
  | nil =>
      have h0 : ddAux seen ([] : List α) = [] := rfl
      rw [List.nil_append, List.append_nil, h0, List.nil_append]
  | cons a as ih =>
      rw [List.cons_append, ddAux, ddAux]
      by_cases ha : a ∈ seen
      · rw [if_pos ha, if_pos ha, ih]
        refine congrArg _ (ddAux_congr l₂ _ _ (fun x => ?_))
        simp only [List.mem_append, List.mem_cons]
        constructor
        · rintro (h | h)
          · exact Or.inl h
          · exact Or.inr (Or.inr h)
        · rintro (h | h | h)
          · exact Or.inl h
          · exact Or.inl (h ▸ ha)
          · exact Or.inr h
      · rw [if_neg ha, if_neg ha, ih, List.cons_append]
        refine congrArg _ (congrArg _ (ddAux_congr l₂ _ _ (fun x => ?_)))
        simp only [List.mem_append, List.mem_cons]
        tauto

theorem ddAux_eq_nil (l : List α) (seen : List α)
    (h : ∀ x ∈ l, x ∈ seen) : ddAux seen l = [] := by
  induction l with
  | nil => rfl
  | cons a as ih =>
      rw [ddAux, if_pos (h a (List.mem_cons_self a as))]
      exact ih (fun x hx => h x (List.mem_cons_of_mem a hx))

theorem ddAux_eq_self (l : List α) (seen : List α) (hnd : l.Nodup)
    (h : ∀ x ∈ l, x ∉ seen) : ddAux seen l = l := by
  induction l generalizing seen with
  | nil => rfl
  | cons a as ih =>
      rw [ddAux, if_neg (h a (List.mem_cons_self a as))]
      rw [List.nodup_cons] at hnd
      refine congrArg (List.cons a) (ih _ hnd.2 (fun x hx => ?_))
      rw [List.mem_cons]
      rintro (h1 | h1)
      · exact hnd.1 (h1 ▸ hx)
      · exact h x (List.mem_cons_of_mem a hx) h1

theorem mem_dedupFirst (l : List α) (x : α) : x ∈ dedupFirst l ↔ x ∈ l := by
  rw [dedupFirst, mem_ddAux]
  simp

theorem dedupFirst_eq_self (l : List α) (hnd : l.Nodup) : dedupFirst l = l :=
  ddAux_eq_self l [] hnd (fun x _ => List.not_mem_nil x)

/-- Dropping a suffix all of whose elements already occur in the prefix. -/
theorem dedupFirst_append_subset (l₁ l₂ : List α)
    (h : ∀ x ∈ l₂, x ∈ l₁) : dedupFirst (l₁ ++ l₂) = dedupFirst l₁ := by
  rw [dedupFirst, ddAux_append, ddAux_eq_nil l₂ _ (fun x hx => by
    rw [List.nil_append]; exact h x hx), List.append_nil]
  rfl

/-- Deduplicating identical concatenated blocks keeps just one block. -/
theorem dedupFirst_flatMap_const {γ : Type} (l : List γ) (B : List α)
    (hne : l ≠ []) : dedupFirst (l.flatMap (fun _ => B)) = dedupFirst B := by
  induction l with
  | nil => exact absurd rfl hne
  | cons x rest ih =>
      rw [List.flatMap_cons]
      cases rest with
      | nil => rw [List.flatMap_nil, List.append_nil]
      | cons y rest2 =>
          apply dedupFirst_append_subset
          intro z hz
          rw [List.mem_flatMap] at hz
          obtain ⟨w, _, hzB⟩ := hz
          exact hzB

end Dedup

/-! ## Generic helpers for the grouping proofs -/

theorem flatMap_ite_singleton {α β : Type} (b : List α) (p : α → Bool) (g : α → β) :
    (b.flatMap (fun x => if p x then [g x] else [])) = (b.filter p).map g := by
  induction b with
  | nil => rfl
  | cons a as ih =>
      rw [List.flatMap_cons, List.filter_cons, ih]
      cases hp : p a
      · rw [if_neg (by simp), if_neg (by simp), List.nil_append]
      · rw [if_pos rfl, if_pos rfl, List.map_cons, List.singleton_append]

theorem filter_beq_of_nodup {α : Type} [DecidableEq α] (b : List α)
    (hnd : b.Nodup) (s : α) (hs : s ∈ b) :
    b.filter (fun x => x == s) = [s] := by
  induction b with
  | nil => cases hs
  | cons a as ih =>
      rw [List.nodup_cons] at hnd
      rw [List.filter_cons]
      by_cases has : a = s
      · subst has
        rw [if_pos (by simp)]
        rw [List.filter_eq_nil_iff.mpr (fun x hx => by
          simp only [beq_iff_eq]
          exact fun he => hnd.1 (he ▸ hx))]
      · rw [if_neg (by simp [has])]
        exact ih hnd.2 (Or.resolve_left (List.mem_cons.mp hs) (fun h => has h.symm))

theorem filter_range_lt (m n : ℕ) (h : m ≤ n) :
    (List.range n).filter (fun k => k < m) = List.range m := by
  induction n with
  | zero =>
      have hm : m = 0 := by omega
      rw [hm]
      rfl
  | succ n ih =>
      rw [List.range_succ, List.filter_append]
      by_cases hm : m ≤ n
      · rw [ih hm, List.filter_cons, if_neg (by simp; omega), List.filter_nil,
          List.append_nil]
      · have hm1 : m = n + 1 := by omega
        subst hm1
        rw [List.filter_eq_self.mpr (fun a ha => by
          simp only [decide_eq_true_eq]
          exact lt_of_lt_of_le (List.mem_range.mp ha) (Nat.le_succ n))]
        rw [List.filter_cons, if_pos (by simp), List.filter_nil, ← List.range_succ]

/-! ## Structure of the raw DataFrame rows -/

theorem mkRows_number_ge (t : ℕ) (bs : ℤ) :
    ∀ (l : List ℚ) (i : ℕ) (r : Row), r ∈ mkRows t bs i l → i ≤ r.number := by
  intro l
  induction l with
  | nil => intro i r hr; cases hr
  | cons v vs ih =>
      intro i r hr
      rw [mkRows] at hr
      rcases List.mem_cons.mp hr with h1 | h1
      · rw [h1]
      · exact Nat.le_of_succ_le (ih (i + 1) r h1)

theorem mkRows_size (t : ℕ) (bs : ℤ) :
    ∀ (l : List ℚ) (i : ℕ) (r : Row), r ∈ mkRows t bs i l → r.size = bs := by
  intro l
  induction l with
  | nil => intro i r hr; cases hr
  | cons v vs ih =>
      intro i r hr
      rw [mkRows] at hr
      rcases List.mem_cons.mp hr with h1 | h1
      · rw [h1]
      · exact ih (i + 1) r h1

theorem mkRows_filter_nil (t : ℕ) (bs : ℤ) (l : List ℚ) (i k : ℕ) (hk : k < i) :
    (mkRows t bs i l).filter (fun r => r.number == k) = [] := by
  rw [List.filter_eq_nil_iff]
  intro r hr
  have hge := mkRows_number_ge t bs l i r hr
  simp only [beq_iff_eq]
  omega

theorem mkRows_filter_number (t : ℕ) (bs : ℤ) :
    ∀ (l : List ℚ) (i k : ℕ),
      (mkRows t bs i l).filter (fun r => r.number == k) =
        if i ≤ k ∧ k - i < l.length then [⟨l.getD (k - i) 0, t, bs, k⟩] else [] := by
  intro l
  induction l with
  | nil =>
      intro i k
      rw [if_neg (by rintro ⟨_, h⟩; simp at h)]
      rfl
  | cons v vs ih =>
      intro i k
      simp only [List.length_cons]
      rw [mkRows, List.filter_cons]
      by_cases hik : i = k
      · subst hik
        rw [if_pos (by simp), mkRows_filter_nil t bs vs (i + 1) i (by omega)]
        rw [if_pos ⟨le_refl i, by omega⟩, Nat.sub_self]
        rfl
      · rw [if_neg (by simp [hik]), ih (i + 1) k]
        by_cases h1 : i + 1 ≤ k ∧ k - (i + 1) < vs.length
        · rw [if_pos h1, if_pos ⟨by omega, by omega⟩]
          obtain ⟨j, hj⟩ : ∃ j, k - i = j + 1 := ⟨k - i - 1, by omega⟩
          rw [hj, List.getD_cons_succ]
          have hjj : j = k - (i + 1) := by omega
          rw [hjj]
        · rw [if_neg h1, if_neg (fun hc => h1 ⟨by omega, by omega⟩)]

theorem mkRows_filter_number_zero (t : ℕ) (bs : ℤ) (l : List ℚ) (k : ℕ) :
    (mkRows t bs 0 l).filter (fun r => r.number == k) =
      if k < l.length then [⟨l.getD k 0, t, bs, k⟩] else [] := by
  rw [mkRows_filter_number]
  simp only [Nat.zero_le, true_and, Nat.sub_zero]

theorem mkRows_map_number (t : ℕ) (bs : ℤ) :
    ∀ (l : List ℚ) (i : ℕ),
      (mkRows t bs i l).map (fun r => r.number) = List.range' i l.length := by
  intro l
  induction l with
  | nil => intro i; rfl
  | cons v vs ih =>
      intro i
      rw [mkRows, List.map_cons, ih (i + 1), List.length_cons, List.range'_succ]

/-! ## Window counts and cross-frame uniformity -/

theorem wStarts_length (dim bs step : ℕ) :
    (wStarts dim bs step).length = wCount dim bs step := by
  rw [wStarts, List.length_map, List.length_range]

theorem divide_windows_length (img : Image) (bs : ℤ) (step : ℕ) :
    (divide_windows img bs step).length =
      wCount img.length bs.toNat step * wCount (imgWidth img) bs.toNat step := by
  rw [divide_windows, List.length_flatMap]
  rw [List.map_congr_left (fun r _ => by
    show ((wStarts (imgWidth img) bs.toNat step).map _).length = _
    rw [List.length_map, wStarts_length])]
  rw [List.map_const', List.sum_replicate, smul_eq_mul, wStarts_length]

theorem wCount_antitone (dim step : ℕ) {b1 b2 : ℕ} (h : b1 ≤ b2) :
    wCount dim b2 step ≤ wCount dim b1 step := by
  unfold wCount
  by_cases h2 : b2 ≤ dim
  · rw [if_pos h2, if_pos (le_trans h h2)]
    exact Nat.add_le_add_right
      (Nat.div_le_div_right (Nat.sub_le_sub_left h dim)) 1
  · rw [if_neg h2]
    exact Nat.zero_le _

theorem divide_windows_length_antitone (img : Image) (step : ℕ)
    {s1 s2 : ℤ} (h : s1 ≤ s2) :
    (divide_windows img s2 step).length ≤ (divide_windows img s1 step).length := by
  rw [divide_windows_length, divide_windows_length]
  exact Nat.mul_le_mul
    (wCount_antitone img.length step (Int.toNat_le_toNat h))
    (wCount_antitone (imgWidth img) step (Int.toNat_le_toNat h))

/-- The number of windows of size `s` in every frame, read off the first
frame (all frames share its dimensions). -/
def cLen (imgs : List Image) (step : ℕ) (s : ℤ) : ℕ :=
  (divide_windows imgs.headI s step).length

/-- The time series of window `k`'s intensity at size `s`: one summed
intensity per frame. -/
def windowSamples (imgs : List Image) (step : ℕ) (s : ℤ) (k : ℕ) : List ℚ :=
  imgs.map (fun img => (divide_windows img s step).getD k 0)

theorem divide_windows_length_eq (imgs : List Image) (step : ℕ)
    (hdim : ∀ img ∈ imgs, img.length = imgs.headI.length ∧
      imgWidth img = imgWidth imgs.headI)
    (img : Image) (himg : img ∈ imgs) (s : ℤ) :
    (divide_windows img s step).length = cLen imgs step s := by
  rw [cLen, divide_windows_length, divide_windows_length,
    (hdim img himg).1, (hdim img himg).2]

/-! ## More list helpers for the grouping argument -/

theorem flatMap_congr_left {α β : Type} (l : List α) (f g : α → List β)
    (h : ∀ a ∈ l, f a = g a) : l.flatMap f = l.flatMap g := by
  induction l with
  | nil => rfl
  | cons a as ih =>
      rw [List.flatMap_cons, List.flatMap_cons, h a (List.mem_cons_self a as),
        ih (fun x hx => h x (List.mem_cons_of_mem a hx))]

theorem flatMap_singleton_eq_map {α β : Type} (l : List α) (g : α → β) :
    l.flatMap (fun x => [g x]) = l.map g := by
  induction l with
  | nil => rfl
  | cons a as ih => rw [List.flatMap_cons, ih, List.map_cons, List.singleton_append]

theorem flatMap_ite_singleton_prop {α β : Type} (b : List α) (p : α → Prop)
    [DecidablePred p] (g : α → β) :
    (b.flatMap (fun x => if p x then [g x] else [])) =
      (b.filter (fun x => decide (p x))).map g := by
  induction b with
  | nil => rfl
  | cons a as ih =>
      rw [List.flatMap_cons, List.filter_cons, ih]
      by_cases hp : p a
      · rw [if_pos hp, if_pos (by simp [hp]), List.map_cons, List.singleton_append]
      · rw [if_neg hp, if_neg (by simp [hp]), List.nil_append]

theorem flatMap_ite_eq_single {α β : Type} [DecidableEq α] (b : List α)
    (hnd : b.Nodup) (s : α) (hs : s ∈ b) (F : α → List β) :
    b.flatMap (fun x => if x = s then F x else []) = F s := by
  induction b with
  | nil => cases hs
  | cons a as ih =>
      rw [List.nodup_cons] at hnd
      rw [List.flatMap_cons]
      by_cases has : a = s
      · subst has
        rw [if_pos rfl]
        rw [List.flatMap_eq_nil_iff.mpr (fun x hx => if_neg (fun he : x = a =>
          hnd.1 (by rw [← he]; exact hx)))]
        rw [List.append_nil]
      · rw [if_neg has, List.nil_append]
        exact ih hnd.2 (Or.resolve_left (List.mem_cons.mp hs) (fun h => has h.symm))

theorem qMean_replicate (m : ℕ) (hm : m ≠ 0) (x : ℚ) :
    qMean (List.replicate m x) = x := by
  rw [qMean, List.sum_replicate, List.length_replicate, nsmul_eq_mul]
  exact mul_div_cancel_left₀ x (by exact_mod_cast hm)

theorem enum_ne_nil {α : Type} (l : List α) (h : l ≠ []) : l.enum ≠ [] := by
  intro hc
  apply h
  have := List.enum_length (l := l)
  rw [hc] at this
  exact List.length_eq_zero.mp this.symm

/-! ## Grouping structure of the raw DataFrame -/

theorem enum_map_snd_comp {α β : Type} (l : List α) (f : α → β) :
    l.enum.map (fun p => f p.2) = l.map f := by
  have h1 : l.enum.map (fun p => f p.2) = (l.enum.map Prod.snd).map f := by
    rw [List.map_map]
    rfl
  rw [h1, List.enum_map_snd]

/-- Filtering `df` by a window index: one row per frame and per box size
that has at least `k + 1` windows. -/
theorem dfRows_filter_number (b : List ℤ) (imgs : List Image) (step : ℕ)
    (hdim : ∀ img ∈ imgs, img.length = imgs.headI.length ∧
      imgWidth img = imgWidth imgs.headI) (k : ℕ) :
    (dfRows b imgs step).filter (fun r => r.number == k) =
      imgs.enum.flatMap (fun ti =>
        b.flatMap (fun bs =>
          if k < cLen imgs step bs then
            [⟨(divide_windows ti.2 bs step).getD k 0, ti.1, bs, k⟩] else [])) := by
  rw [dfRows, List.filter_flatMap]
  refine flatMap_congr_left _ _ _ (fun ti hti => ?_)
  rw [List.filter_flatMap]
  refine flatMap_congr_left _ _ _ (fun bs _ => ?_)
  rw [mkRows_filter_number_zero,
    divide_windows_length_eq imgs step hdim ti.2 (List.snd_mem_of_mem_enum hti) bs]

theorem dfRows_map_number (b : List ℤ) (imgs : List Image) (step : ℕ)
    (hdim : ∀ img ∈ imgs, img.length = imgs.headI.length ∧
      imgWidth img = imgWidth imgs.headI) :
    (dfRows b imgs step).map (fun r => r.number) =
      imgs.enum.flatMap (fun _ =>
        b.flatMap (fun bs => List.range (cLen imgs step bs))) := by
  rw [dfRows, List.map_flatMap]
  refine flatMap_congr_left _ _ _ (fun ti hti => ?_)
  rw [List.map_flatMap]
  refine flatMap_congr_left _ _ _ (fun bs _ => ?_)
  rw [mkRows_map_number,
    divide_windows_length_eq imgs step hdim ti.2 (List.snd_mem_of_mem_enum hti) bs,
    List.range_eq_range']

/-- The distinct window indices of `df`, in first-occurrence order: exactly
`0, …, c₀ − 1` where `c₀` is the window count of the first (smallest) box
size. -/
theorem dfRows_numbers_dedup (s₀ : ℤ) (b' : List ℤ) (imgs : List Image)
    (step : ℕ)
    (hdim : ∀ img ∈ imgs, img.length = imgs.headI.length ∧
      imgWidth img = imgWidth imgs.headI)
    (hne : imgs ≠ []) (hord : ∀ s ∈ b', s₀ ≤ s) :
    dedupFirst ((dfRows (s₀ :: b') imgs step).map (fun r => r.number)) =
      List.range (cLen imgs step s₀) := by
  rw [dfRows_map_number _ _ _ hdim,
    dedupFirst_flatMap_const _ _ (enum_ne_nil imgs hne), List.flatMap_cons]
  rw [dedupFirst_append_subset _ _ (fun x hx => ?_)]
  · exact dedupFirst_eq_self _ (List.nodup_range _)
  · rw [List.mem_flatMap] at hx
    obtain ⟨bs, hbs, hxbs⟩ := hx
    rw [List.mem_range] at hxbs ⊢
    exact lt_of_lt_of_le hxbs
      (divide_windows_length_antitone imgs.headI step (hord bs hbs))

theorem sub1_map_size (b : List ℤ) (imgs : List Image) (step : ℕ)
    (hdim : ∀ img ∈ imgs, img.length = imgs.headI.length ∧
      imgWidth img = imgWidth imgs.headI) (k : ℕ) :
    ((dfRows b imgs step).filter (fun r => r.number == k)).map (fun r => r.size) =
      imgs.enum.flatMap (fun _ =>
        b.filter (fun bs => decide (k < cLen imgs step bs))) := by
  rw [dfRows_filter_number _ _ _ hdim k, List.map_flatMap]
  refine flatMap_congr_left _ _ _ (fun ti _ => ?_)
  rw [List.map_flatMap]
  rw [flatMap_congr_left _ _
    (fun bs => if k < cLen imgs step bs then [bs] else []) (fun bs _ => by
      by_cases h : k < cLen imgs step bs
      · simp [h]
      · simp [h])]
  rw [flatMap_ite_singleton_prop b (fun bs => k < cLen imgs step bs)
    (fun bs => bs), List.map_id']

theorem sub1_sizes_dedup (b : List ℤ) (imgs : List Image) (step : ℕ)
    (hdim : ∀ img ∈ imgs, img.length = imgs.headI.length ∧
      imgWidth img = imgWidth imgs.headI)
    (hnd : b.Nodup) (hne : imgs ≠ []) (k : ℕ) :
    dedupFirst (((dfRows b imgs step).filter
        (fun r => r.number == k)).map (fun r => r.size)) =
      b.filter (fun bs => decide (k < cLen imgs step bs)) := by
  rw [sub1_map_size _ _ _ hdim k,
    dedupFirst_flatMap_const _ _ (enum_ne_nil imgs hne)]
  exact dedupFirst_eq_self _ (hnd.filter _)

/-- The `I` column of the `(number = k, size = s)` group of `df` is exactly
window `k`'s time series at size `s`. -/
theorem sub1_filter_size_map_I (b : List ℤ) (imgs : List Image) (step : ℕ)
    (hdim : ∀ img ∈ imgs, img.length = imgs.headI.length ∧
      imgWidth img = imgWidth imgs.headI)
    (hnd : b.Nodup) (k : ℕ) (s : ℤ) (hs : s ∈ b)
    (hks : k < cLen imgs step s) :
    (((dfRows b imgs step).filter (fun r => r.number == k)).filter
        (fun r => r.size == s)).map (fun r => r.I) =
      windowSamples imgs step s k := by
  rw [dfRows_filter_number _ _ _ hdim k, List.filter_flatMap]
  rw [flatMap_congr_left _ _
    (fun ti => [(⟨(divide_windows ti.2 s step).getD k 0, ti.1, s, k⟩ : Row)])
    (fun ti _ => ?_)]
  · rw [flatMap_singleton_eq_map, List.map_map]
    exact enum_map_snd_comp imgs (fun img => (divide_windows img s step).getD k 0)
  · rw [List.filter_flatMap]
    rw [flatMap_congr_left _ _
      (fun bs => if bs = s then
        (if k < cLen imgs step bs then
          [(⟨(divide_windows ti.2 bs step).getD k 0, ti.1, bs, k⟩ : Row)]
         else []) else []) (fun bs _ => ?_)]
    · rw [flatMap_ite_eq_single b hnd s hs, if_pos hks]
    · by_cases hbs : bs = s
      · subst hbs
        by_cases hk : k < cLen imgs step bs
        · simp [hk]
        · simp [hk]
      · by_cases hk : k < cLen imgs step bs
        · simp [hbs, hk]
        · simp [hbs, hk]

/-- The record `df_out` produces for window `k` and size `s`:
`n = s²`, `d = s²` times the population std of window `k`'s time series. -/
noncomputable def outRowOf (imgs : List Image) (step k : ℕ) (s : ℤ) : OutRow :=
  ⟨(s : ℚ) ^ 2, (s : ℝ) ^ 2 * npStd (windowSamples imgs step s k), s, k⟩

/-- Normal form of `df_out`: one record per (window index, box size with
enough windows) pair, each holding the time variance of that window. -/
theorem dfOut_eq (s₀ : ℤ) (b' : List ℤ) (imgs : List Image) (step : ℕ)
    (hdim : ∀ img ∈ imgs, img.length = imgs.headI.length ∧
      imgWidth img = imgWidth imgs.headI)
    (hne : imgs ≠ []) (hnd : (s₀ :: b').Nodup) (hord : ∀ s ∈ b', s₀ ≤ s) :
    dfOut (dfRows (s₀ :: b') imgs step) =
      (List.range (cLen imgs step s₀)).flatMap (fun k =>
        ((s₀ :: b').filter (fun bs => decide (k < cLen imgs step bs))).map
          (outRowOf imgs step k)) := by
  rw [dfOut, dfRows_numbers_dedup s₀ b' imgs step hdim hne hord]
  refine flatMap_congr_left _ _ _ (fun k _ => ?_)
  rw [sub1_sizes_dedup (s₀ :: b') imgs step hdim hnd hne k]
  refine List.map_congr_left (fun s hsf => ?_)
  have hs : s ∈ s₀ :: b' := List.mem_of_mem_filter hsf
  have hks : k < cLen imgs step s := by
    have h2 := List.of_mem_filter hsf
    simpa using h2
  rw [outRowOf,
    sub1_filter_size_map_I (s₀ :: b') imgs step hdim hnd k s hs hks]

/-- The estimator output in closed form: one record per box size `s`, with
`n = s²` and `d` the spatial average over window positions of `s²` times the
temporal population standard deviation of that window's intensity. -/
theorem pipeline_eq (b : List ℤ) (imgs : List Image) (step : ℕ)
    (hb : List.Pairwise (· < ·) b)
    (hdim : ∀ img ∈ imgs, img.length = imgs.headI.length ∧
      imgWidth img = imgWidth imgs.headI)
    (hne : imgs ≠ [])
    (hc1 : ∀ s ∈ b, 1 ≤ cLen imgs step s) :
    averageOf (dfOut (dfRows b imgs step)) =
      b.map (fun s : ℤ =>
        ⟨(s : ℚ) ^ 2,
         rMean ((List.range (cLen imgs step s)).map
           (fun k => (s : ℝ) ^ 2 * npStd (windowSamples imgs step s k)))⟩) := by
  cases b with
  | nil =>
      have h1 : dfRows [] imgs step = [] := by
        rw [dfRows]
        exact List.flatMap_eq_nil_iff.mpr (fun ti _ => List.flatMap_nil _)
      rw [h1]
      rfl
  | cons s₀ b' =>
      have hnd : (s₀ :: b').Nodup := hb.imp (fun h => ne_of_lt h)
      have hord : ∀ s ∈ b', s₀ ≤ s :=
        fun s hs => le_of_lt ((List.pairwise_cons.mp hb).1 s hs)
      have hcs : ∀ s ∈ s₀ :: b',
          cLen imgs step s ≤ cLen imgs step s₀ := by
        intro s hs
        rcases List.mem_cons.mp hs with rfl | hs2
        · exact le_refl _
        · exact divide_windows_length_antitone imgs.headI step (hord s hs2)
      rw [dfOut_eq s₀ b' imgs step hdim hne hnd hord, averageOf]
      have hmapsize :
          ((List.range (cLen imgs step s₀)).flatMap (fun k =>
            ((s₀ :: b').filter (fun bs => decide (k < cLen imgs step bs))).map
              (outRowOf imgs step k))).map (fun r => r.size) =
          (List.range (cLen imgs step s₀)).flatMap (fun k =>
            (s₀ :: b').filter (fun bs => decide (k < cLen imgs step bs))) := by
        rw [List.map_flatMap]
        refine flatMap_congr_left _ _ _ (fun k _ => ?_)
        rw [List.map_map]
        show List.map (fun s : ℤ => s) _ = _
        rw [List.map_id']
      obtain ⟨m, hm⟩ : ∃ m, cLen imgs step s₀ = m + 1 :=
        ⟨cLen imgs step s₀ - 1, by
          have := hc1 s₀ (List.mem_cons_self _ _)
          omega⟩
      have hhead : (s₀ :: b').filter
          (fun bs => decide (0 < cLen imgs step bs)) = s₀ :: b' :=
        List.filter_eq_self.mpr (fun a ha => by
          simp only [decide_eq_true_eq]
          have := hc1 a ha
          omega)
      have hdedup : dedupFirst
          (((List.range (cLen imgs step s₀)).flatMap (fun k =>
            ((s₀ :: b').filter (fun bs => decide (k < cLen imgs step bs))).map
              (outRowOf imgs step k))).map (fun r => r.size)) = s₀ :: b' := by
        rw [hmapsize, hm, List.range_succ_eq_map, List.flatMap_cons, hhead]
        rw [dedupFirst_append_subset _ _ (fun x hx => ?_)]
        · exact dedupFirst_eq_self _ hnd
        · rw [List.mem_flatMap] at hx
          obtain ⟨k, _, hk2⟩ := hx
          exact List.mem_of_mem_filter hk2
      rw [hdedup]
      refine List.map_congr_left (fun s hs => ?_)
      have hfilter :
          ((List.range (cLen imgs step s₀)).flatMap (fun k =>
            ((s₀ :: b').filter (fun bs => decide (k < cLen imgs step bs))).map
              (outRowOf imgs step k))).filter (fun r => r.size == s) =
          (List.range (cLen imgs step s)).map (fun k => outRowOf imgs step k s) := by
        rw [List.filter_flatMap]
        rw [flatMap_congr_left _ _
          (fun k => if decide (k < cLen imgs step s) then
            [outRowOf imgs step k s] else []) (fun k _ => ?_)]
        · rw [flatMap_ite_singleton _ (fun k => decide (k < cLen imgs step s))
            (fun k => outRowOf imgs step k s)]
          rw [filter_range_lt _ _ (hcs s hs)]
        · rw [List.filter_map,
            show ((fun r : OutRow => r.size == s) ∘ outRowOf imgs step k) =
              (fun bs : ℤ => bs == s) from rfl,
            List.filter_comm, filter_beq_of_nodup _ hnd s hs,
            List.filter_singleton]
          by_cases hk : k < cLen imgs step s
          · simp [hk]
          · simp [hk]
      rw [hfilter]
      refine congrArg₂ AvgRow.mk ?_ ?_
      · rw [List.map_map]
        show qMean ((List.range (cLen imgs step s)).map
          (fun _ => (s : ℚ) ^ 2)) = _
        rw [List.map_const', List.length_range]
        exact qMean_replicate _ (by
          have := hc1 s hs
          omega) _
      · rw [List.map_map]
        rfl

/-! ## C1 and C6: the estimator's output records -/

theorem boxsizeList_pairwise (L : ℕ) :
    List.Pairwise (· < ·) (boxsizeList L) := by
  rw [boxsizeList]
  exact pairwise_lt_npUnique _

theorem boxsizeOf_pairwise (imgs : List Image) :
    List.Pairwise (· < ·) (boxsizeOf imgs) := by
  rw [boxsizeOf]
  exact boxsizeList_pairwise _

theorem wCount_pos (dim bs step : ℕ) (h : bs ≤ dim) :
    1 ≤ wCount dim bs step := by
  rw [wCount, if_pos h]
  exact Nat.le_add_left 1 _

/-- Every derived window size fits in every frame, so every size has at
least one window position. -/
theorem boxsizeOf_cLen_pos (imgs : List Image) (step : ℕ)
    (hL : 15 ≤ minShape imgs.headI) :
    ∀ s ∈ boxsizeOf imgs, 1 ≤ cLen imgs step s := by
  intro s hs
  rw [boxsizeOf] at hs
  obtain ⟨h5, hhi⟩ := boxsize_bounds (minShape imgs.headI) hL s hs
  have hLr : (15 : ℝ) ≤ (minShape imgs.headI : ℝ) := by exact_mod_cast hL
  have hsL : (s : ℝ) ≤ (minShape imgs.headI : ℝ) := by linarith
  have hsLz : s ≤ (minShape imgs.headI : ℤ) := by exact_mod_cast hsL
  have htn : s.toNat ≤ minShape imgs.headI := Int.toNat_le.mpr hsLz
  rw [minShape] at htn
  have hh : s.toNat ≤ imgs.headI.length := le_trans htn (min_le_left _ _)
  have hw : s.toNat ≤ imgWidth imgs.headI := le_trans htn (min_le_right _ _)
  rw [cLen, divide_windows_length]
  calc 1 = 1 * 1 := rfl
    _ ≤ _ := Nat.mul_le_mul (wCount_pos _ _ _ hh) (wCount_pos _ _ _ hw)

/-- C1 (amended): on an image sequence of equal-dimension frames whose
shorter side is at least 15, the estimator outputs, for each window size `s`
in the window-size set, one record with `n = s²` and `d` equal to the
*spatial average over window positions* of `s²` times the *temporal*
population standard deviation of each window's intensity across frames
(time variance, then spatial average) — not the pooled standard deviation
of all samples of that size. -/
theorem claim_C1 (imgs : List Image)
    (hdim : ∀ img ∈ imgs, img.length = imgs.headI.length ∧
      imgWidth img = imgWidth imgs.headI)
    (hne : imgs ≠ [])
    (hL : 15 ≤ minShape imgs.headI) :
    df2_nobp imgs = (boxsizeOf imgs).map (fun s : ℤ =>
      ⟨(s : ℚ) ^ 2,
       rMean ((List.range (cLen imgs (50 * 5) s)).map
         (fun k => (s : ℝ) ^ 2 * npStd (windowSamples imgs (50 * 5) s k)))⟩) := by
  rw [df2_nobp]
  exact pipeline_eq (boxsizeOf imgs) imgs (50 * 5) (boxsizeOf_pairwise imgs)
    hdim hne (boxsizeOf_cLen_pos imgs (50 * 5) hL)

/-- C6: the final output has exactly one fluctuation record per window size
of the window-size set, in the set's order, and the `n` values (`= s²`) are
strictly increasing. -/
theorem claim_C6 (imgs : List Image)
    (hdim : ∀ img ∈ imgs, img.length = imgs.headI.length ∧
      imgWidth img = imgWidth imgs.headI)
    (hne : imgs ≠ [])
    (hL : 15 ≤ minShape imgs.headI) :
    (df2_nobp imgs).map (fun r => r.n) =
      (boxsizeOf imgs).map (fun s : ℤ => (s : ℚ) ^ 2) ∧
    List.Pairwise (· < ·) ((df2_nobp imgs).map (fun r => r.n)) := by
  have hmaster := pipeline_eq (boxsizeOf imgs) imgs (50 * 5)
    (boxsizeOf_pairwise imgs) hdim hne (boxsizeOf_cLen_pos imgs (50 * 5) hL)
  rw [df2_nobp, hmaster, List.map_map]
  constructor
  · rfl
  · show List.Pairwise (· < ·) ((boxsizeOf imgs).map (fun s : ℤ => (s : ℚ) ^ 2))
    rw [List.pairwise_map]
    refine List.Pairwise.imp_of_mem ?_ (boxsizeOf_pairwise imgs)
    intro x y hx _ hxy
    have h5 : (5 : ℤ) ≤ x := by
      rw [boxsizeOf] at hx
      exact (boxsize_bounds (minShape imgs.headI) hL x hx).1
    have hxq : (0 : ℚ) ≤ (x : ℚ) := by
      have : (0 : ℤ) ≤ x := by omega
      exact_mod_cast this
    have hxyq : (x : ℚ) < (y : ℚ) := by exact_mod_cast hxy
    exact pow_lt_pow_left₀ hxyq hxq (by norm_num)

/-- C1 witness: a single all-zero 15×15 frame satisfies the hypotheses. -/
theorem claim_C1_witness :
    ([List.replicate 15 (List.replicate 15 (0 : ℚ))] ≠ ([] : List Image)) ∧
    df2_nobp [List.replicate 15 (List.replicate 15 (0 : ℚ))] =
      (boxsizeOf [List.replicate 15 (List.replicate 15 (0 : ℚ))]).map
        (fun s : ℤ =>
          ⟨(s : ℚ) ^ 2,
           rMean ((List.range (cLen [List.replicate 15 (List.replicate 15 (0 : ℚ))]
               (50 * 5) s)).map
             (fun k => (s : ℝ) ^ 2 *
               npStd (windowSamples [List.replicate 15 (List.replicate 15 (0 : ℚ))]
                 (50 * 5) s k)))⟩) := by
  refine ⟨by simp, claim_C1 _ ?_ (by simp) (by decide)⟩
  intro img himg
  rw [List.mem_singleton.mp himg]
  exact ⟨rfl, rfl⟩

/-- C6 witness: the same single all-zero 15×15 frame. -/
theorem claim_C6_witness :
    (15 ≤ minShape ([List.replicate 15 (List.replicate 15 (0 : ℚ))] : List Image).headI) ∧
    List.Pairwise (· < ·)
      ((df2_nobp [List.replicate 15 (List.replicate 15 (0 : ℚ))]).map (fun r => r.n)) := by
  refine ⟨by decide, (claim_C6 _ ?_ (by simp) (by decide)).2⟩
  intro img himg
  rw [List.mem_singleton.mp himg]
  exact ⟨rfl, rfl⟩

/-! ## C1 counterexample: time variance → spatial average vs pooled std

A 15×260 frame with a single bright pixel at `(0, 250)`, repeated twice.
With `size_min = 5` and `step = 250` the window-size set is `[5]` and every
frame has two windows: the window at `(0, 0)` (total intensity 0 in both
frames) and the window at `(0, 250)` (total intensity 2 in both frames).
Each window is constant in time, so every per-window temporal std is 0 and
the output `d` is 0 — while the pooled standard deviation of all samples
`[0, 2, 0, 2]` of size 5 is 1, making the claimed `d = 5² · 1 = 25`. -/

/-- A 15×260 test frame whose only nonzero pixel is a `2` at `(0, 250)`. -/
def cFrame : Image :=
  (List.range 15).map (fun r => (List.range 260).map (fun c : ℕ =>
    if r = 0 ∧ c = 250 then (2 : ℚ) else 0))

/-- The two-frame test sequence. -/
def cImgs : List Image := [cFrame, cFrame]

/-- The fluctuation value described by the claim (spec step 3): the
population standard deviation of *all* window-intensity samples of size `s`
collected across all frames of the sequence, multiplied by `s²`. -/
noncomputable def specPooledD (imgs : List Image) (s : ℤ) : ℝ :=
  (s : ℝ) ^ 2 * npStd (((dfRows (boxsizeOf imgs) imgs (50 * 5)).filter
    (fun r => r.size == s)).map (fun r => r.I))

theorem getD_range_map {β : Type} (n i : ℕ) (f : ℕ → β) (d : β) (h : i < n) :
    ((List.range n).map f).getD i d = f i := by
  rw [List.getD_eq_getElem?_getD, List.getElem?_map, List.getElem?_range h]
  rfl

theorem pixel_cFrame (r c : ℕ) (hr : r < 15) (hc : c < 260) :
    pixel cFrame r c = if r = 0 ∧ c = 250 then (2 : ℚ) else 0 := by
  rw [pixel, cFrame, getD_range_map 15 r _ _ hr, getD_range_map 260 c _ _ hc]

theorem sum_map_ite_single (n : ℕ) (hn : 0 < n) (a : ℚ) :
    ((List.range n).map (fun j => if j = 0 then a else 0)).sum = a := by
  obtain ⟨m, rfl⟩ : ∃ m, n = m + 1 := ⟨n - 1, by omega⟩
  rw [List.range_succ_eq_map, List.map_cons, List.sum_cons, if_pos rfl,
    List.map_map]
  rw [List.sum_eq_zero (fun x hx => ?_), add_zero]
  rw [List.mem_map] at hx
  obtain ⟨j, _, hj⟩ := hx
  rw [← hj]
  show (if Nat.succ j = 0 then a else 0) = 0
  rw [if_neg (Nat.succ_ne_zero j)]

theorem windowSum_cFrame_00 : windowSum cFrame 0 0 5 = 0 := by
  rw [windowSum]
  apply List.sum_eq_zero
  intro x hx
  rw [List.mem_map] at hx
  obtain ⟨i, hi, hxi⟩ := hx
  rw [← hxi]
  apply List.sum_eq_zero
  intro y hy
  rw [List.mem_map] at hy
  obtain ⟨j, hj, hyj⟩ := hy
  rw [List.mem_range] at hi hj
  rw [← hyj, pixel_cFrame (0 + i) (0 + j) (by omega) (by omega),
    if_neg (by omega)]

theorem cFrame_length : cFrame.length = 15 := by
  rw [cFrame, List.length_map, List.length_range]

theorem imgWidth_cFrame : imgWidth cFrame = 260 := by
  rw [imgWidth,
    show cFrame.headI =
      (List.range 260).map (fun c : ℕ => if 0 = 0 ∧ c = 250 then (2 : ℚ) else 0)
      from rfl,
    List.length_map, List.length_range]

theorem windowSum_cFrame_0250 : windowSum cFrame 0 250 5 = 2 := by
  rw [windowSum]
  have hrow : (List.range 5).map (fun j => pixel cFrame (0 + 0) (250 + j)) =
      (List.range 5).map (fun j => if j = 0 then (2 : ℚ) else 0) :=
    List.map_congr_left (fun j hj => by
      rw [List.mem_range] at hj
      rw [pixel_cFrame (0 + 0) (250 + j) (by omega) (by omega)]
      by_cases hj0 : j = 0
      · subst hj0
        rw [if_pos (by omega)]
        rfl
      · rw [if_neg (by omega), if_neg hj0])
  have hinner : (List.range 5).map (fun i =>
      ((List.range 5).map (fun j => pixel cFrame (0 + i) (250 + j))).sum) =
      (List.range 5).map (fun i => if i = 0 then (2 : ℚ) else 0) :=
    List.map_congr_left (fun i hi => by
      rw [List.mem_range] at hi
      by_cases hi0 : i = 0
      · subst hi0
        rw [if_pos rfl, hrow]
        exact sum_map_ite_single 5 (by norm_num) 2
      · rw [if_neg hi0]
        apply List.sum_eq_zero
        intro y hy
        rw [List.mem_map] at hy
        obtain ⟨j, hj, hyj⟩ := hy
        rw [List.mem_range] at hj
        rw [← hyj, pixel_cFrame (0 + i) (250 + j) (by omega) (by omega),
          if_neg (by omega)])
  rw [hinner]
  exact sum_map_ite_single 5 (by norm_num) 2

theorem divide_windows_cFrame : divide_windows cFrame 5 250 = [0, 2] := by
  rw [divide_windows, cFrame_length,
    show (5 : ℤ).toNat = 5 from rfl, imgWidth_cFrame,
    show wStarts 15 5 250 = [0] from (by decide),
    show wStarts 260 5 250 = [0, 250] from (by decide)]
  rw [List.flatMap_singleton, List.map_cons, List.map_cons, List.map_nil,
    windowSum_cFrame_00, windowSum_cFrame_0250]

theorem minShape_cFrame : minShape cFrame = 15 := by
  rw [minShape, cFrame_length, imgWidth_cFrame]
  decide

theorem boxsizeOf_cImgs : boxsizeOf cImgs = [5] := by
  rw [boxsizeOf, show cImgs.headI = cFrame from rfl, minShape_cFrame,
    boxsizeList_15]

theorem dfRows_cImgs : dfRows [5] cImgs 250 =
    [⟨0, 0, 5, 0⟩, ⟨2, 0, 5, 1⟩, ⟨0, 1, 5, 0⟩, ⟨2, 1, 5, 1⟩] := by
  rw [dfRows, show cImgs.enum = [(0, cFrame), (1, cFrame)] from rfl,
    List.flatMap_cons, List.flatMap_cons, List.flatMap_nil, List.append_nil]
  rw [List.flatMap_singleton, List.flatMap_singleton]
  show mkRows 0 5 0 (divide_windows cFrame 5 250) ++
    mkRows 1 5 0 (divide_windows cFrame 5 250) = _
  rw [divide_windows_cFrame]
  rfl

theorem cRows_pool :
    (([⟨0, 0, 5, 0⟩, ⟨2, 0, 5, 1⟩, ⟨0, 1, 5, 0⟩, ⟨2, 1, 5, 1⟩] :
      List Row).filter (fun r => r.size == 5)).map (fun r => r.I) =
      [0, 2, 0, 2] := by decide

theorem npStd_00 : npStd [0, 0] = 0 := by
  rw [npStd, show popVar [0, 0] = 0 from (by
    norm_num [popVar, qMean, List.sum_cons, List.sum_nil, List.map_cons,
      List.map_nil]), Rat.cast_zero, Real.sqrt_zero]

theorem npStd_22 : npStd [2, 2] = 0 := by
  rw [npStd, show popVar [2, 2] = 0 from (by
    norm_num [popVar, qMean, List.sum_cons, List.sum_nil, List.map_cons,
      List.map_nil]), Rat.cast_zero, Real.sqrt_zero]

theorem npStd_0202 : npStd [0, 2, 0, 2] = 1 := by
  rw [npStd, show popVar [0, 2, 0, 2] = 1 from (by
    norm_num [popVar, qMean, List.sum_cons, List.sum_nil, List.map_cons,
      List.map_nil]), Rat.cast_one, Real.sqrt_one]

/-- The output of `df_out` on the counterexample sequence: both windows are
constant in time, so both temporal standard deviations vanish. -/
theorem dfOut_cImgs : dfOut (dfRows (boxsizeOf cImgs) cImgs (50 * 5)) =
    [⟨((5 : ℤ) : ℚ) ^ 2, ((5 : ℤ) : ℝ) ^ 2 * npStd [0, 0], 5, 0⟩,
     ⟨((5 : ℤ) : ℚ) ^ 2, ((5 : ℤ) : ℝ) ^ 2 * npStd [2, 2], 5, 1⟩] := by
  rw [boxsizeOf_cImgs, show (50 * 5 : ℕ) = 250 from rfl, dfRows_cImgs, dfOut]
  simp [show dedupFirst [0, 1, 0, 1] = [0, 1] from (by decide),
    show dedupFirst [(5 : ℤ), 5] = [5] from (by decide),
    List.filter_cons, List.filter_nil]

/-- C1 counterexample: on the two-frame sequence `cImgs` the estimator's
only record has `d = 0` (each window is constant in time), whereas the
claimed pooled value is `5² · std([0, 2, 0, 2]) = 25`; the estimator does
not compute the claimed quantity. -/
theorem claim_C1_counterexample :
    (df2_nobp cImgs).map (fun r => r.d) = [0] ∧
    specPooledD cImgs 5 = 25 ∧
    (df2_nobp cImgs).map (fun r => r.d) ≠ [specPooledD cImgs 5] := by
  have hfirst : (df2_nobp cImgs).map (fun r => r.d) = [0] := by
    rw [df2_nobp, dfOut_cImgs, averageOf]
    simp only [List.map_cons, List.map_nil,
      show dedupFirst [(5 : ℤ), 5] = [5] from (by decide), List.filter_cons,
      List.filter_nil, beq_self_eq_true, if_true, npStd_00, npStd_22,
      mul_zero]
    rw [show rMean [(0 : ℝ), 0] = 0 from (by
      norm_num [rMean, List.sum_cons, List.sum_nil])]
  have hsecond : specPooledD cImgs 5 = 25 := by
    rw [specPooledD, boxsizeOf_cImgs, show (50 * 5 : ℕ) = 250 from rfl,
      dfRows_cImgs, cRows_pool, npStd_0202, mul_one]
    norm_num
  refine ⟨hfirst, hsecond, ?_⟩
  rw [hfirst, hsecond]
  intro hc
  have h0 : (0 : ℝ) = 25 := by
    have := List.cons.injEq (0 : ℝ) [] 25 [] ▸ hc
    exact (List.cons.injEq _ _ _ _ ▸ hc).1
  norm_num at h0

end GNF
